import Mathlib

/-!
Shallow embedding of the text-layout core of the `satori` repository
(`src/text/index.ts` and the grapheme measurer `genMeasurer`).

Strings are modelled as `List Char` (one element per character, the unit the
source indexes by). Widths and coordinates are modelled as `ℚ`. The external
collaborators (font engine, grapheme segmenter, bidi analyzer, inline-image
table) are abstract function parameters bundled in `Ctx`; the measurement
cache of `genMeasurer` is an explicit association list threaded through every
function that the source's closures mutate it from. Code paths that throw in
JavaScript (property access on `undefined`) are modelled by `Option`: a
`none` result is an exception.
-/

namespace Satori

/-- A grapheme cluster (as handed around by `segment(text, 'grapheme')`). -/
abbrev Grapheme := List Char

/-- Cache key of `genMeasurer`: the template string `grapheme-fontSize-letterSpacing`. -/
abbrev CacheKey := Grapheme × ℚ × ℚ

/-- The measurement cache `cache : Map<string, number>` of `genMeasurer`. -/
abbrev Cache := List (CacheKey × ℚ)

/-- `cache.get(key)` — first binding of the key, if any. -/
def cacheLookup (c : Cache) (k : CacheKey) : Option ℚ :=
  (c.find? (fun e => decide (e.1 = k))).map (fun e => e.2)

/-- `cache.set(key, w)` as executed by `measureGrapheme` (only on a miss). -/
def cacheInsert (c : Cache) (k : CacheKey) (w : ℚ) : Cache :=
  (k, w) :: c

/-- Cache extension: every binding visible in `c` is still visible in `d`.
This is the "cache growth" side effect the spec allows the measurer. -/
def cacheLe (c d : Cache) : Prop :=
  ∀ k w, cacheLookup c k = some w → cacheLookup d k = some w

/-- A cache is consistent with an engine when every stored width is the
width the engine measures for that key. Execution only ever stores engine
results, so this is an invariant of the real cache. -/
def CacheConsistent (measure : Grapheme → ℚ → ℚ → ℚ) (c : Cache) : Prop :=
  ∀ g fs ls w, cacheLookup c (g, fs, ls) = some w → w = measure g fs ls

/-- The slice of the external font engine used by this core:
`measure`, `baseline` (ascent) and `height`. -/
structure EngineFns where
  measure : Grapheme → ℚ → ℚ → ℚ
  baseline : List Char → ℚ
  height : List Char → ℚ

/-- `measureGrapheme` of `genMeasurer`: cached engine measurement. -/
def measureGrapheme (eng : EngineFns) (c : Cache) (g : Grapheme) (fs ls : ℚ) :
    ℚ × Cache :=
  match cacheLookup c (g, fs, ls) with
  | some w => (w, c)
  | none => (eng.measure g fs ls, cacheInsert c (g, fs, ls) (eng.measure g fs ls))

/-- `measureGraphemeArray` of `genMeasurer`: each grapheme recognized as an
inline image contributes `fontSize`, the rest are (cached) engine lookups. -/
def measureGraphemeArray (eng : EngineFns) (isImage : Grapheme → Bool)
    (fs ls : ℚ) : Cache → List Grapheme → ℚ × Cache
  | c, [] => (0, c)
  | c, g :: rest =>
    if isImage g then
      let r := measureGraphemeArray eng isImage fs ls c rest
      (fs + r.1, r.2)
    else
      let r1 := measureGrapheme eng c g fs ls
      let r2 := measureGraphemeArray eng isImage fs ls r1.2 rest
      (r1.1 + r2.1, r2.2)

/-- The per-grapheme width `measureGraphemeArray` accumulates, expressed
cache-free (the comparison target for the measurer's contract). -/
def graphemeWidth (eng : EngineFns) (isImage : Grapheme → Bool)
    (g : Grapheme) (fs ls : ℚ) : ℚ :=
  if isImage g then fs else eng.measure g fs ls

/-- Static inputs of one `buildTextNodes` invocation: the engine the measurer
was built over, the inline-image table, the external segmenter and bidi
analyzer, the style values destructured from `parentStyle`, and the
preprocessor flags consumed by `flow`. -/
structure Ctx where
  engine : EngineFns
  engineAt : ℚ → EngineFns
  isImage : Grapheme → Bool
  segment : List Char → List Grapheme
  bidiLevels : List Char → List Nat
  bidiReorder : List Char → List Nat
  fontSize : ℚ
  letterSpacing : ℚ
  allowSoftWrap : Bool
  lineLimit : Nat
  textFit : String
  maxFontSize : Option Nat

/-- `measureText` of `genMeasurer`: `measureGraphemeArray` over the text's
grapheme-cluster segmentation. -/
def measureText (ctx : Ctx) (c : Cache) (text : List Char) (fs ls : ℚ) :
    ℚ × Cache :=
  measureGraphemeArray ctx.engine ctx.isImage fs ls c (ctx.segment text)

/-- A bidi run `{ start, end, level }` as produced by `getRuns`. -/
structure Run where
  start : Nat
  «end» : Nat
  level : Nat
  deriving DecidableEq, Repr

/-- The scanning loop of `getRuns` (`for (let i = 1; i < text.length; i++)`):
`start` is `startIndex`, `i` the index of the first level in `rest`, `cur`
the `currentLevel`; the final `runs.push` is the `[]` case. -/
def getRunsAux (start i cur : Nat) : List Nat → List Run
  | [] => [⟨start, i, cur⟩]
  | l :: rest =>
    if l ≠ cur then ⟨start, i, cur⟩ :: getRunsAux i (i + 1) l rest
    else getRunsAux start (i + 1) cur rest

/-- `getRuns(text, embeddingResult)`: fall back to a single level-0 run when
the level array is empty (or absent) or its length disagrees with the text
length, otherwise chunk the text by consecutive embedding levels. -/
def getRuns (text : List Char) (levels : List Nat) : List Run :=
  if levels.isEmpty ∨ text.length ≠ levels.length then
    [⟨0, text.length, 0⟩]
  else
    match levels with
    | [] => [⟨0, text.length, 0⟩]
    | l0 :: rest => getRunsAux 0 1 l0 rest

/-- `text.slice(a, b)` on the character-list model. -/
def sliceChars (t : List Char) (a b : Nat) : List Char :=
  (t.drop a).take (b - a)

/-- One entry of `shapedRunSegments`. -/
structure ShapedRunSegment where
  text : List Char
  width : ℚ
  isRTL : Bool
  isImage : Bool
  deriving DecidableEq, Repr

/-- One entry of `shapedSegmentsForLine` (before and after `x` assignment). -/
structure VisSeg where
  text : List Char
  x : ℚ
  width : ℚ
  isImage : Bool
  isRTL : Bool
  deriving DecidableEq, Repr

/-- One entry of `placedSegments`. -/
structure PlacedSegment where
  text : List Char
  x : ℚ
  y : ℚ
  width : ℚ
  line : Nat
  lineIndex : Nat
  isImage : Bool
  deriving DecidableEq, Repr

/-- What `shapeLineWithBidiRuns` returns, together with the pushes it makes
into `placedSegments` (the source mutates the shared array; here the new
entries are returned in `segs`). -/
structure ShapeResult where
  width : ℚ
  lineHeight : ℚ
  baseline : ℚ
  segs : List PlacedSegment
  deriving DecidableEq, Repr

/-- The `runs.forEach` pass of `shapeLineWithBidiRuns`: measure each run's
substring as a single chunk (an inline-image run costs `fontSize`, measured
with the outer `fontSize`/`letterSpacing` captured by the closure), and fold
the running `maxAscent`/`maxDescent` from `useEngine`.
Returns `(shapedRunSegments, maxAscent, maxDescent, cache)`. -/
def shapeRunsFold (ctx : Ctx) (useEng : EngineFns) (lineText : List Char) :
    Cache → List Run → List ShapedRunSegment × ℚ × ℚ × Cache
  | c, [] => ([], 0, 0, c)
  | c, r :: rest =>
    let sub := sliceChars lineText r.start r.«end»
    if ctx.isImage sub then
      let seg : ShapedRunSegment :=
        { text := sub, width := ctx.fontSize, isRTL := r.level % 2 == 1,
          isImage := true }
      let asc := useEng.baseline sub
      let desc := useEng.height sub - asc
      let tail := shapeRunsFold ctx useEng lineText c rest
      (seg :: tail.1, max asc tail.2.1, max desc tail.2.2.1, tail.2.2.2)
    else
      let m := measureText ctx c sub ctx.fontSize ctx.letterSpacing
      let seg : ShapedRunSegment :=
        { text := sub, width := m.1, isRTL := r.level % 2 == 1,
          isImage := false }
      let asc := useEng.baseline sub
      let desc := useEng.height sub - asc
      let tail := shapeRunsFold ctx useEng lineText m.2 rest
      (seg :: tail.1, max asc tail.2.1, max desc tail.2.2.1, tail.2.2.2)

/-- `runMap`: position `i` of the line maps to the index of the shaped run
segment owning character `i` (built from contiguous segment lengths). -/
def buildRunMap (segs : List ShapedRunSegment) : List Nat :=
  (segs.enum.map (fun p => List.replicate p.2.text.length p.1)).flatten

/-- `segStartForSegment`: where segment `segIndex`'s text starts in the line. -/
def segStartForSegment (segs : List ShapedRunSegment) (segIndex : Nat) : Nat :=
  ((segs.take segIndex).map (fun s => s.text.length)).sum

/-- `collectSubstring(runText, reorderedIndices, start, end, offsetInLine)`:
walk `reorderedIndices[start..end)` keeping the characters that fall inside
this run. -/
def collectSubstring (runText : List Char) (reordered : List Nat)
    (start stop : Nat) : Nat → List Char :=
  fun offset =>
    ((reordered.drop start).take (stop - start)).filterMap (fun idx =>
      if offset ≤ idx ∧ idx < offset + runText.length then
        runText.get? (idx - offset)
      else none)

/-- The grouping walk over `reordered`: consecutive indices owned by one run
form a group `(owning segment index, runStart, i)`. The owning index is an
`Option` because `runMap[rIndex]` is `undefined` in JavaScript when
`rIndex` is out of range (and `runMap[reordered[0]]` is `undefined` when
`reordered` is empty); the final entry is the flush after the loop. -/
def groupsAux (runMap : List Nat) :
    List Nat → Nat → Nat → Option Nat → List (Option Nat × Nat × Nat)
  | [], i, runStart, cur => [(cur, runStart, i)]
  | r :: rest, i, runStart, cur =>
    let segIndex := runMap.get? r
    if segIndex ≠ cur then
      (cur, runStart, i) :: groupsAux runMap rest (i + 1) i segIndex
    else
      groupsAux runMap rest (i + 1) runStart cur

/-- All groups of the walk, starting from `currentRunIndex = runMap[reordered[0]]`. -/
def computeGroups (runMap reordered : List Nat) : List (Option Nat × Nat × Nat) :=
  groupsAux runMap reordered 0 0 (reordered.head?.bind (fun r => runMap.get? r))

/-- Close one group: `shapedRunSegments[currentRunIndex]` is dereferenced, so
a `none` owner (JavaScript `undefined`) throws — modelled by `none`. The
segment's text is reconstructed with `collectSubstring` and re-measured with
`measureText` (also for image segments, as in the source). -/
def buildVisualSeg (ctx : Ctx) (c : Cache) (segs : List ShapedRunSegment)
    (reordered : List Nat) : Option Nat × Nat × Nat → Option (VisSeg × Cache)
  | (none, _, _) => none
  | (some segIndex, runStart, i) =>
    match segs.get? segIndex with
    | none => none
    | some seg =>
      let offset := segStartForSegment segs segIndex
      let text := collectSubstring seg.text reordered runStart i offset
      let m := measureText ctx c text ctx.fontSize ctx.letterSpacing
      some ({ text := text, x := 0, width := m.1,
              isImage := seg.isImage, isRTL := seg.isRTL }, m.2)

/-- Close every group in order (`shapedSegmentsForLine`), threading the cache. -/
def buildVisualSegs (ctx : Ctx) (segs : List ShapedRunSegment)
    (reordered : List Nat) (c : Cache) :
    List (Option Nat × Nat × Nat) → Option (List VisSeg × Cache)
  | [] => some ([], c)
  | g :: gs =>
    (buildVisualSeg ctx c segs reordered g).bind (fun vc =>
      (buildVisualSegs ctx segs reordered vc.2 gs).map (fun rest =>
        (vc.1 :: rest.1, rest.2)))

/-- The placement pass: `seg.x = cursorX; cursorX += seg.width`. Returns the
placed list and the final `cursorX`. -/
def placeSegs (cursorX : ℚ) : List VisSeg → List VisSeg × ℚ
  | [] => ([], cursorX)
  | v :: vs =>
    let rest := placeSegs (cursorX + v.width) vs
    ({ v with x := cursorX } :: rest.1, rest.2)

/-- `shapeLineWithBidiRuns(lineWords, xOffset, currentLine, currentHeight,
containerWidth, useEngine)`. The `containerWidth` parameter is unused in the
source body and kept for fidelity. `none` models a thrown exception. -/
def shapeLineWithBidiRuns (ctx : Ctx) (useEng : EngineFns) (c : Cache)
    (lineWords : List (List Char)) (xOffset : ℚ) (currentLine : Nat)
    (currentHeight : ℚ) (_containerWidth : ℚ) : Option (ShapeResult × Cache) :=
  let lineText := lineWords.flatten
  let embeddingLevels := ctx.bidiLevels lineText
  let runs := getRuns lineText embeddingLevels
  let sr := shapeRunsFold ctx useEng lineText c runs
  let reordered := ctx.bidiReorder lineText
  let runMap := buildRunMap sr.1
  let groups := computeGroups runMap reordered
  (buildVisualSegs ctx sr.1 reordered sr.2.2.2 groups).map (fun bv =>
    let pl := placeSegs xOffset bv.1
    let segs := pl.1.enum.map (fun p =>
      PlacedSegment.mk p.2.text p.2.x currentHeight p.2.width currentLine
        p.1 p.2.isImage)
    ({ width := pl.2 - xOffset, lineHeight := sr.2.1 + sr.2.2.1,
       baseline := sr.2.1, segs := segs }, bv.2))

/-- The mutable flow state: the accumulator arrays reset at the top of
`flow` plus the per-line locals of the word loop. -/
structure FlowState where
  lines : Nat
  maxWidth : ℚ
  totalHeight : ℚ
  currentLineWords : List (List Char)
  currentLineWidth : ℚ
  currentLineAscent : ℚ
  currentLineBaseline : ℚ
  lineWidths : List ℚ
  baselines : List ℚ
  lineSegmentNumber : List Nat
  placedSegments : List PlacedSegment
  deriving DecidableEq, Repr

/-- The state at the top of `flow` (all accumulators reset). -/
def initFlowState : FlowState :=
  { lines := 0, maxWidth := 0, totalHeight := 0, currentLineWords := [],
    currentLineWidth := 0, currentLineAscent := 0, currentLineBaseline := 0,
    lineWidths := [], baselines := [], lineSegmentNumber := [],
    placedSegments := [] }

/-- `',.!?:-@)>]}%#'.indexOf(word[0]) < 0`: the fixed punctuation set that is
forbidden from starting a new visual line (an empty word has no first
character and is allowed, as `indexOf(undefined)` is `-1`). -/
def allowedToPutAtBeginning (word : List Char) : Bool :=
  match word.head? with
  | none => true
  | some ch =>
    !([',', '.', '!', '?', ':', '-', '@', ')', '>', ']', '\x7d', '%', '#'].contains ch)

/-- `measureWord` inside `flow`: an inline-image grapheme costs the flow's
`fontSize` parameter, anything else is `measureText` at that size. -/
def measureWord (ctx : Ctx) (c : Cache) (word : List Char) (fs ls : ℚ) :
    ℚ × Cache :=
  if ctx.isImage word then (fs, c)
  else measureText ctx c word fs ls

/-- The `willWrap` test of `flow`: true when the word's global index `i` is
not 0, its first character may start a line, adding it would exceed the
container width, and soft wrap is enabled. -/
def willWrap (ctx : Ctx) (containerWidth : ℚ) (s : FlowState) (w : ℚ)
    (i : Nat) (word : List Char) : Bool :=
  (i != 0) && allowedToPutAtBeginning word &&
    decide (s.currentLineWidth + w > containerWidth) && ctx.allowSoftWrap

/-- One iteration of the word loop of `flow` at word index `i`. On
`forcedBreak || willWrap` the accumulated line is shaped and recorded and the
accumulator is reset (the triggering word carries onto the new line unless
the break was forced, in which case it is dropped and the new line starts
empty); otherwise the word is appended to the current line. The cache grown
by `measureWord` persists on both paths. -/
def flowStep (ctx : Ctx) (containerWidth fs ls : ℚ) (useEng : EngineFns)
    (s : FlowState) (c : Cache) (i : Nat) (word : List Char)
    (forcedBreak : Bool) : Option (FlowState × Cache) :=
  let m := measureWord ctx c word fs ls
  if forcedBreak || willWrap ctx containerWidth s m.1 i word then
    (shapeLineWithBidiRuns ctx useEng m.2 s.currentLineWords 0 s.lines
        s.totalHeight containerWidth).map (fun lr =>
      ({ lines := s.lines + 1,
         maxWidth := max s.maxWidth lr.1.width,
         totalHeight := s.totalHeight + lr.1.lineHeight,
         currentLineWords := if forcedBreak then [] else [word],
         currentLineWidth := if forcedBreak then 0 else m.1,
         currentLineAscent :=
           if !forcedBreak && decide (m.1 > 0) then
             max s.currentLineAscent (useEng.baseline word)
           else s.currentLineAscent,
         currentLineBaseline :=
           if !forcedBreak && decide (m.1 > 0) then
             max s.currentLineAscent (useEng.baseline word)
           else s.currentLineBaseline,
         lineWidths := s.lineWidths ++ [lr.1.width],
         baselines := s.baselines ++ [lr.1.baseline],
         lineSegmentNumber := s.lineSegmentNumber ++ [s.currentLineWords.length],
         placedSegments := s.placedSegments ++ lr.1.segs }, lr.2))
  else
    some ({ s with
            currentLineWords := s.currentLineWords ++ [word],
            currentLineWidth := s.currentLineWidth + m.1 }, m.2)

/-- The `while (i < words.length && lines < lineLimit)` loop of `flow`:
once the line limit is reached the remaining words are dropped. -/
def flowLoop (ctx : Ctx) (containerWidth fs ls : ℚ) (useEng : EngineFns) :
    FlowState → Cache → List (List Char × Bool) → Nat →
    Option (FlowState × Cache)
  | s, c, [], _ => some (s, c)
  | s, c, (word, fb) :: rest, i =>
    if s.lines < ctx.lineLimit then
      (flowStep ctx containerWidth fs ls useEng s c i word fb).bind (fun sc =>
        flowLoop ctx containerWidth fs ls useEng sc.1 sc.2 rest (i + 1))
    else some (s, c)

/-- `flow(containerWidth, fontSize, letterSpacing, useEngine)`: reset the
accumulators, run the word loop, flush the last non-empty line if the limit
allows, and return `{ width: maxWidth, height: totalHeight }` together with
the final state and cache. `words` pairs each word with its
`requiredBreaks[i]` flag. -/
def flow (ctx : Ctx) (containerWidth fs ls : ℚ) (useEng : EngineFns)
    (c : Cache) (words : List (List Char × Bool)) :
    Option ((ℚ × ℚ) × FlowState × Cache) :=
  (flowLoop ctx containerWidth fs ls useEng initFlowState c words 0).bind
    (fun sc =>
      let s := sc.1
      if s.currentLineWords.length ≠ 0 ∧ s.lines < ctx.lineLimit then
        (shapeLineWithBidiRuns ctx useEng sc.2 s.currentLineWords 0 s.lines
            s.totalHeight containerWidth).map (fun lr =>
          let s2 : FlowState :=
            { s with
              lines := s.lines + 1,
              maxWidth := max s.maxWidth lr.1.width,
              totalHeight := s.totalHeight + lr.1.lineHeight,
              lineWidths := s.lineWidths ++ [lr.1.width],
              baselines := s.baselines ++ [lr.1.baseline],
              lineSegmentNumber :=
                s.lineSegmentNumber ++ [s.currentLineWords.length],
              placedSegments := s.placedSegments ++ lr.1.segs }
          ((s2.maxWidth, s2.totalHeight), s2, lr.2))
      else some ((s.maxWidth, s.totalHeight), s, sc.2))

/-- The `textFit === 'multiline'` binary search of `setMeasureFunc`,
abstracted over the measured height per candidate font size (`flow` treated
as an oracle `h`). `fuel` bounds the iteration count (`hi + 1 - lo` at the
top call always suffices); `lo`/`hi`/`best` are
`testMinFontSize`/`testMaxFontSize`/`bestFitFontSize`. -/
def bestFitFontSize (h : Nat → ℚ) (ch : ℚ) : Nat → Nat → Nat → Nat → Nat
  | 0, _, _, best => best
  | fuel + 1, lo, hi, best =>
    if lo ≤ hi then
      let mid := (lo + hi) / 2
      if h mid ≤ ch then bestFitFontSize h ch fuel (mid + 1) hi mid
      else bestFitFontSize h ch fuel lo (mid - 1) best
    else best

/-- The whole `multiline` branch of the measure callback, abstracted over
`flowAt : size ↦ (width, height)`: binary search over
`[10, maxFontSize || 120]`, then one final re-run of `flow` at the chosen
size; the reported width is `Math.ceil`ed. Returns the reported
`(width, height)` and the chosen `finalFontSize`. -/
def multilineMeasure (flowAt : Nat → ℚ × ℚ) (ch : ℚ)
    (maxFontSize : Option Nat) : (ℚ × ℚ) × Nat :=
  let hi := maxFontSize.getD 120
  let best := bestFitFontSize (fun s => (flowAt s).2) ch (hi + 1 - 10) 10 hi 10
  let r := flowAt best
  (((⌈r.1⌉ : ℤ), r.2), best)

/-- The concrete `multiline` binary search with the cache threaded through
every `flow` re-run (each candidate rebuilds the engine via `engineAt`). -/
def fitLoop (ctx : Ctx) (containerWidth ch : ℚ)
    (words : List (List Char × Bool)) :
    Nat → Nat → Nat → Nat → Cache → Option (Nat × Cache)
  | 0, _, _, best, c => some (best, c)
  | fuel + 1, lo, hi, best, c =>
    if lo ≤ hi then
      let mid := (lo + hi) / 2
      (flow ctx containerWidth (mid : ℚ) ctx.letterSpacing
          (ctx.engineAt (mid : ℚ)) c words).bind (fun r =>
        if r.1.2 ≤ ch then
          fitLoop ctx containerWidth ch words fuel (mid + 1) hi mid r.2.2
        else
          fitLoop ctx containerWidth ch words fuel lo (mid - 1) best r.2.2)
    else some (best, c)

/-- The measure callback installed by `setMeasureFunc`: in `multiline` mode
binary-search the font size and re-run `flow` once at the winner, otherwise
a single `flow` at the style font size; the reported width is ceiled.
Returns the reported `(width, height)`, the final accumulator state and the
final cache. -/
def measureCallback (ctx : Ctx) (words : List (List Char × Bool)) (c : Cache)
    (cw ch : ℚ) : Option ((ℚ × ℚ) × FlowState × Cache) :=
  if ctx.textFit = "multiline" then
    let hi := ctx.maxFontSize.getD 120
    (fitLoop ctx cw ch words (hi + 1 - 10) 10 hi 10 c).bind (fun bc =>
      (flow ctx cw (bc.1 : ℚ) ctx.letterSpacing (ctx.engineAt (bc.1 : ℚ))
          bc.2 words).map (fun r =>
        (((⌈r.1.1⌉ : ℤ), r.1.2), r.2.1, r.2.2)))
  else
    (flow ctx cw ctx.fontSize ctx.letterSpacing (ctx.engineAt ctx.fontSize)
        c words).map (fun r => (((⌈r.1.1⌉ : ℤ), r.1.2), r.2.1, r.2.2))

/-- The alignment adjustment of the render loop: `leftOffset` is shifted by
the line's slack for `right`/`end`, by half the slack for `center`, and only
when `lineWidths[line]` is truthy (nonzero). -/
def alignedLeftOffset (textAlign : String) (containerWidth lineWidth leftOffset : ℚ) : ℚ :=
  if lineWidth ≠ 0 ∧ (textAlign = "right" ∨ textAlign = "end") then
    leftOffset + (containerWidth - lineWidth)
  else if lineWidth ≠ 0 ∧ textAlign = "center" then
    leftOffset + (containerWidth - lineWidth) / 2
  else leftOffset

/-- The line-accounting invariant of the flow accumulator: each of the three
per-line arrays has one entry per completed line, and every placed segment
belongs to a completed line. -/
def FlowInv (s : FlowState) : Prop :=
  s.lineWidths.length = s.lines ∧ s.baselines.length = s.lines ∧
  s.lineSegmentNumber.length = s.lines ∧
  ∀ seg ∈ s.placedSegments, seg.line < s.lines

/-- A small concrete engine for concrete evaluations: every grapheme is 5
wide, ascent 8, height 10. -/
def sampleEngine : EngineFns :=
  { measure := fun _ _ _ => 5, baseline := fun _ => 8, height := fun _ => 10 }

/-- A concrete left-to-right context: per-character graphemes, no inline
images, level 0 everywhere, identity reordering, soft wrap on, two lines
allowed. -/
def sampleCtx : Ctx :=
  { engine := sampleEngine,
    engineAt := fun _ => sampleEngine,
    isImage := fun _ => false,
    segment := fun t => t.map (fun ch => [ch]),
    bidiLevels := fun t => List.replicate t.length 0,
    bidiReorder := fun t => List.range t.length,
    fontSize := 12,
    letterSpacing := 0,
    allowSoftWrap := true,
    lineLimit := 2,
    textFit := "normal",
    maxFontSize := none }


/-! ## Cache algebra -/

theorem cacheLe_refl (c : Cache) : cacheLe c c :=
  fun _ _ h => h

theorem cacheLe_trans {a b c : Cache} (h1 : cacheLe a b) (h2 : cacheLe b c) :
    cacheLe a c :=
  fun k w h => h2 k w (h1 k w h)

theorem cacheLookup_cons (c : Cache) (k0 k : CacheKey) (w0 : ℚ) :
    cacheLookup (((k0, w0) : CacheKey × ℚ) :: c) k =
      if k0 = k then some w0 else cacheLookup c k := by
  by_cases he : k0 = k
  · simp [cacheLookup, List.find?, he]
  · simp [cacheLookup, List.find?, he]

theorem cacheLookup_insert_self (c : Cache) (k : CacheKey) (w : ℚ) :
    cacheLookup (cacheInsert c k w) k = some w := by
  show cacheLookup (((k, w) : CacheKey × ℚ) :: c) k = some w
  rw [cacheLookup_cons, if_pos rfl]

theorem cacheLe_insert_of_not_mem (c : Cache) (k : CacheKey) (w : ℚ)
    (hk : cacheLookup c k = none) : cacheLe c (cacheInsert c k w) := by
  intro k' w' h'
  have hne : k ≠ k' := by
    intro he
    rw [← he, hk] at h'
    exact Option.noConfusion h'
  show cacheLookup (((k, w) : CacheKey × ℚ) :: c) k' = some w'
  rw [cacheLookup_cons, if_neg hne]
  exact h'

/-! ## Measurer lemmas -/

theorem measureGrapheme_grow (eng : EngineFns) (c : Cache) (g : Grapheme)
    (fs ls : ℚ) : cacheLe c (measureGrapheme eng c g fs ls).2 := by
  unfold measureGrapheme
  cases hc : cacheLookup c (g, fs, ls) with
  | none => exact cacheLe_insert_of_not_mem c _ _ hc
  | some w => exact cacheLe_refl c

theorem measureGrapheme_stable (eng : EngineFns) (c d : Cache) (g : Grapheme)
    (fs ls : ℚ) (h : cacheLe (measureGrapheme eng c g fs ls).2 d) :
    measureGrapheme eng d g fs ls = ((measureGrapheme eng c g fs ls).1, d) := by
  unfold measureGrapheme at h ⊢
  cases hc : cacheLookup c (g, fs, ls) with
  | none =>
    rw [hc] at h
    have hd : cacheLookup d (g, fs, ls) = some (eng.measure g fs ls) :=
      h _ _ (cacheLookup_insert_self c _ _)
    rw [hd]
  | some w =>
    rw [hc] at h
    have hd : cacheLookup d (g, fs, ls) = some w := h _ _ hc
    rw [hd]

theorem measureGrapheme_consistent (eng : EngineFns) (c : Cache) (g : Grapheme)
    (fs ls : ℚ) (hc : CacheConsistent eng.measure c) :
    (measureGrapheme eng c g fs ls).1 = eng.measure g fs ls ∧
      CacheConsistent eng.measure (measureGrapheme eng c g fs ls).2 := by
  unfold measureGrapheme
  cases hk : cacheLookup c (g, fs, ls) with
  | none =>
    refine ⟨rfl, ?_⟩
    intro g' fs' ls' w' h'
    rw [show cacheInsert c (g, fs, ls) (eng.measure g fs ls) =
        (((g, fs, ls) : CacheKey), eng.measure g fs ls) :: c from rfl] at h'
    rw [cacheLookup_cons] at h'
    by_cases he : ((g, fs, ls) : CacheKey) = (g', fs', ls')
    · rw [if_pos he] at h'
      obtain ⟨rfl, rfl, rfl⟩ : g = g' ∧ fs = fs' ∧ ls = ls' := by
        simpa [Prod.ext_iff] using he
      exact (Option.some.inj h').symm
    · rw [if_neg he] at h'
      exact hc g' fs' ls' w' h'
  | some w =>
    exact ⟨hc g fs ls w hk, hc⟩

theorem measureGraphemeArray_cons_image (eng : EngineFns)
    (isImg : Grapheme → Bool) (c : Cache) (g : Grapheme) (rest : List Grapheme)
    (fs ls : ℚ) (hi : isImg g = true) :
    measureGraphemeArray eng isImg fs ls c (g :: rest) =
      (fs + (measureGraphemeArray eng isImg fs ls c rest).1,
        (measureGraphemeArray eng isImg fs ls c rest).2) := by
  rw [measureGraphemeArray, if_pos hi]

theorem measureGraphemeArray_cons_glyph (eng : EngineFns)
    (isImg : Grapheme → Bool) (c : Cache) (g : Grapheme) (rest : List Grapheme)
    (fs ls : ℚ) (hi : isImg g = false) :
    measureGraphemeArray eng isImg fs ls c (g :: rest) =
      ((measureGrapheme eng c g fs ls).1 +
          (measureGraphemeArray eng isImg fs ls (measureGrapheme eng c g fs ls).2
            rest).1,
        (measureGraphemeArray eng isImg fs ls (measureGrapheme eng c g fs ls).2
          rest).2) := by
  rw [measureGraphemeArray, if_neg (by simp [hi])]

theorem measureGraphemeArray_grow (eng : EngineFns) (isImg : Grapheme → Bool)
    (fs ls : ℚ) : ∀ (gs : List Grapheme) (c : Cache),
    cacheLe c (measureGraphemeArray eng isImg fs ls c gs).2 := by
  intro gs
  induction gs with
  | nil => intro c; exact cacheLe_refl c
  | cons g rest ih =>
    intro c
    cases hi : isImg g with
    | true =>
      rw [measureGraphemeArray_cons_image eng isImg c g rest fs ls hi]
      exact ih c
    | false =>
      rw [measureGraphemeArray_cons_glyph eng isImg c g rest fs ls hi]
      exact cacheLe_trans (measureGrapheme_grow eng c g fs ls)
        (ih (measureGrapheme eng c g fs ls).2)

theorem measureGraphemeArray_stable (eng : EngineFns) (isImg : Grapheme → Bool)
    (fs ls : ℚ) : ∀ (gs : List Grapheme) (c d : Cache),
    cacheLe (measureGraphemeArray eng isImg fs ls c gs).2 d →
    measureGraphemeArray eng isImg fs ls d gs =
      ((measureGraphemeArray eng isImg fs ls c gs).1, d) := by
  intro gs
  induction gs with
  | nil => intro c d _; rfl
  | cons g rest ih =>
    intro c d h
    cases hi : isImg g with
    | true =>
      rw [measureGraphemeArray_cons_image eng isImg c g rest fs ls hi] at h ⊢
      rw [measureGraphemeArray_cons_image eng isImg d g rest fs ls hi]
      rw [ih c d h]
    | false =>
      rw [measureGraphemeArray_cons_glyph eng isImg c g rest fs ls hi] at h ⊢
      rw [measureGraphemeArray_cons_glyph eng isImg d g rest fs ls hi]
      have hgrow := measureGraphemeArray_grow eng isImg fs ls rest
        (measureGrapheme eng c g fs ls).2
      have hg : cacheLe (measureGrapheme eng c g fs ls).2 d :=
        cacheLe_trans hgrow h
      rw [measureGrapheme_stable eng c d g fs ls hg]
      rw [ih (measureGrapheme eng c g fs ls).2 d h]

theorem measureGraphemeArray_consistent (eng : EngineFns)
    (isImg : Grapheme → Bool) (fs ls : ℚ) : ∀ (gs : List Grapheme) (c : Cache),
    CacheConsistent eng.measure c →
    (measureGraphemeArray eng isImg fs ls c gs).1 =
      (gs.map (fun g => graphemeWidth eng isImg g fs ls)).sum ∧
    CacheConsistent eng.measure (measureGraphemeArray eng isImg fs ls c gs).2 := by
  intro gs
  induction gs with
  | nil => intro c hc; exact ⟨rfl, hc⟩
  | cons g rest ih =>
    intro c hc
    cases hi : isImg g with
    | true =>
      rw [measureGraphemeArray_cons_image eng isImg c g rest fs ls hi]
      obtain ⟨h1, h2⟩ := ih c hc
      exact ⟨by simp [graphemeWidth, hi, h1], h2⟩
    | false =>
      rw [measureGraphemeArray_cons_glyph eng isImg c g rest fs ls hi]
      obtain ⟨hg, hcons⟩ := measureGrapheme_consistent eng c g fs ls hc
      obtain ⟨h1, h2⟩ := ih (measureGrapheme eng c g fs ls).2 hcons
      exact ⟨by simp [graphemeWidth, hi, h1, hg], h2⟩

theorem measureText_grow (ctx : Ctx) (c : Cache) (t : List Char) (fs ls : ℚ) :
    cacheLe c (measureText ctx c t fs ls).2 :=
  measureGraphemeArray_grow ctx.engine ctx.isImage fs ls (ctx.segment t) c

theorem measureText_stable (ctx : Ctx) (c d : Cache) (t : List Char)
    (fs ls : ℚ) (h : cacheLe (measureText ctx c t fs ls).2 d) :
    measureText ctx d t fs ls = ((measureText ctx c t fs ls).1, d) :=
  measureGraphemeArray_stable ctx.engine ctx.isImage fs ls (ctx.segment t) c d h

theorem measureText_consistent (ctx : Ctx) (c : Cache) (t : List Char)
    (fs ls : ℚ) (hc : CacheConsistent ctx.engine.measure c) :
    (measureText ctx c t fs ls).1 =
      ((ctx.segment t).map
        (fun g => graphemeWidth ctx.engine ctx.isImage g fs ls)).sum ∧
    CacheConsistent ctx.engine.measure (measureText ctx c t fs ls).2 :=
  measureGraphemeArray_consistent ctx.engine ctx.isImage fs ls (ctx.segment t) c hc

/-- C2: with a cache that only stores engine results (the invariant of the
real cache, which starts empty), `measureText t fs ls` is the sum, over the
grapheme clusters of `t` in order, of the engine-measured width of each
grapheme — except that a grapheme recognized as an inline image contributes
exactly `fontSize`. -/
theorem measureText_grapheme_sum (ctx : Ctx) (c : Cache) (t : List Char)
    (fs ls : ℚ) (hc : CacheConsistent ctx.engine.measure c) :
    (measureText ctx c t fs ls).1 =
      ((ctx.segment t).map
        (fun g => graphemeWidth ctx.engine ctx.isImage g fs ls)).sum :=
  (measureText_consistent ctx c t fs ls hc).1

/-- Witness for C2 at the concrete text "ab" with the empty cache. -/
theorem measureText_grapheme_sum_witness :
    (measureText sampleCtx [] ['a', 'b'] 12 0).1 =
      ((sampleCtx.segment ['a', 'b']).map
        (fun g => graphemeWidth sampleCtx.engine sampleCtx.isImage g 12 0)).sum :=
  measureText_grapheme_sum sampleCtx [] ['a', 'b'] 12 0
    (fun g fs ls w h => by simp [cacheLookup] at h)

/-! ## getRuns lemmas -/

theorem getLast?_cons_of_ne_nil {α : Type} (a : α) {l : List α} (h : l ≠ []) :
    (a :: l).getLast? = l.getLast? := by
  cases l with
  | nil => exact absurd rfl h
  | cons b m => exact List.getLast?_cons_cons

theorem getRunsAux_ne_nil : ∀ (rest : List Nat) (start i cur : Nat),
    getRunsAux start i cur rest ≠ [] := by
  intro rest
  induction rest with
  | nil => intro start i cur; simp [getRunsAux]
  | cons l rest ih =>
    intro start i cur
    rw [getRunsAux]
    by_cases hl : l ≠ cur
    · rw [if_pos hl]; simp
    · rw [if_neg hl]; exact ih start (i + 1) cur

theorem getRunsAux_head : ∀ (rest : List Nat) (start i cur : Nat) (r : Run),
    (getRunsAux start i cur rest).head? = some r →
    r.start = start ∧ r.level = cur := by
  intro rest
  induction rest with
  | nil =>
    intro start i cur r h
    simp [getRunsAux] at h
    subst h
    exact ⟨rfl, rfl⟩
  | cons l rest ih =>
    intro start i cur r h
    rw [getRunsAux] at h
    by_cases hl : l ≠ cur
    · rw [if_pos hl] at h
      simp at h
      subst h
      exact ⟨rfl, rfl⟩
    · rw [if_neg hl] at h
      exact ih start (i + 1) cur r h

theorem getRunsAux_last : ∀ (rest : List Nat) (start i cur : Nat) (r : Run),
    (getRunsAux start i cur rest).getLast? = some r →
    r.«end» = i + rest.length := by
  intro rest
  induction rest with
  | nil =>
    intro start i cur r h
    simp [getRunsAux] at h
    subst h
    simp
  | cons l rest ih =>
    intro start i cur r h
    rw [getRunsAux] at h
    by_cases hl : l ≠ cur
    · rw [if_pos hl] at h
      rw [getLast?_cons_of_ne_nil _ (getRunsAux_ne_nil rest i (i + 1) l)] at h
      have := ih i (i + 1) l r h
      simp [this]
      omega
    · rw [if_neg hl] at h
      have := ih start (i + 1) cur r h
      simp [this]
      omega

theorem getRunsAux_chain_end_start : ∀ (rest : List Nat) (start i cur : Nat),
    List.Chain' (fun a b => a.«end» = b.start) (getRunsAux start i cur rest) := by
  intro rest
  induction rest with
  | nil => intro start i cur; simp [getRunsAux]
  | cons l rest ih =>
    intro start i cur
    rw [getRunsAux]
    by_cases hl : l ≠ cur
    · rw [if_pos hl]
      refine List.chain'_cons'.2 ⟨?_, ih i (i + 1) l⟩
      intro b hb
      exact ((getRunsAux_head rest i (i + 1) l b hb).1).symm
    · rw [if_neg hl]
      exact ih start (i + 1) cur

theorem getRunsAux_chain_level : ∀ (rest : List Nat) (start i cur : Nat),
    List.Chain' (fun a b => a.level ≠ b.level) (getRunsAux start i cur rest) := by
  intro rest
  induction rest with
  | nil => intro start i cur; simp [getRunsAux]
  | cons l rest ih =>
    intro start i cur
    rw [getRunsAux]
    by_cases hl : l ≠ cur
    · rw [if_pos hl]
      refine List.chain'_cons'.2 ⟨?_, ih i (i + 1) l⟩
      intro b hb
      rw [(getRunsAux_head rest i (i + 1) l b hb).2]
      exact fun he => hl he.symm
    · rw [if_neg hl]
      exact ih start (i + 1) cur

theorem getRunsAux_pos : ∀ (rest : List Nat) (start i cur : Nat),
    start < i → ∀ r ∈ getRunsAux start i cur rest, r.start < r.«end» := by
  intro rest
  induction rest with
  | nil =>
    intro start i cur hsi r hr
    simp [getRunsAux] at hr
    subst hr
    exact hsi
  | cons l rest ih =>
    intro start i cur hsi r hr
    rw [getRunsAux] at hr
    by_cases hl : l ≠ cur
    · rw [if_pos hl] at hr
      rcases List.mem_cons.1 hr with h | h
      · subst h; exact hsi
      · exact ih i (i + 1) l (Nat.lt_succ_self i) r h
    · rw [if_neg hl] at hr
      exact ih start (i + 1) cur (Nat.lt_succ_of_lt hsi) r hr

theorem getRunsAux_levels (levels : List Nat) :
    ∀ (rest : List Nat) (start i cur : Nat),
    rest = levels.drop i →
    (∀ j, start ≤ j → j < i → levels.get? j = some cur) →
    ∀ r ∈ getRunsAux start i cur rest,
      ∀ j, r.start ≤ j → j < r.«end» → levels.get? j = some r.level := by
  intro rest
  induction rest with
  | nil =>
    intro start i cur _ hcur r hr j h1 h2
    simp [getRunsAux] at hr
    subst hr
    exact hcur j h1 h2
  | cons l rest ih =>
    intro start i cur hrest hcur r hr j h1 h2
    have hgi : levels.get? i = some l := by
      have h0 := List.getElem?_drop levels i 0
      rw [← hrest] at h0
      rw [List.get?_eq_getElem?]
      simpa using h0.symm
    have hrest' : rest = levels.drop (i + 1) := by
      rw [← List.tail_drop, ← hrest]
      rfl
    rw [getRunsAux] at hr
    by_cases hl : l ≠ cur
    · rw [if_pos hl] at hr
      rcases List.mem_cons.1 hr with h | h
      · subst h
        exact hcur j h1 h2
      · refine ih i (i + 1) l hrest' ?_ r h j h1 h2
        intro j' hj1 hj2
        have : j' = i := by omega
        subst this
        exact hgi
    · rw [if_neg hl] at hr
      push_neg at hl
      refine ih start (i + 1) cur hrest' ?_ r hr j h1 h2
      intro j' hj1 hj2
      by_cases hj : j' < i
      · exact hcur j' hj1 hj
      · have : j' = i := by omega
        subst this
        rw [hgi, hl]

theorem getRuns_cons_eq (t : List Char) (l0 : Nat) (rest : List Nat)
    (h2 : (l0 :: rest).length = t.length) :
    getRuns t (l0 :: rest) = getRunsAux 0 1 l0 rest := by
  unfold getRuns
  rw [if_neg]
  intro h
  rcases h with h | h
  · simp [List.isEmpty] at h
  · exact h h2.symm

/-- C3: for every line string `t`, if the embedding-levels result is empty or
its length differs from the character count of `t`, `getRuns` returns exactly
one run `{start: 0, end: t.length, level: 0}` spanning the whole string. -/
theorem getRuns_fallback_single_run (t : List Char) (levels : List Nat)
    (h : levels = [] ∨ levels.length ≠ t.length) :
    getRuns t levels = [⟨0, t.length, 0⟩] := by
  unfold getRuns
  rcases h with h | h
  · subst h
    rw [if_pos (show ([] : List Nat).isEmpty = true ∨ t.length ≠ ([] : List Nat).length from Or.inl rfl)]
  · rw [if_pos (Or.inr (Ne.symm h))]

/-- Witness for C3 at two concrete inputs (empty result, mismatched length). -/
theorem getRuns_fallback_single_run_witness :
    getRuns ['a'] [] = [⟨0, 1, 0⟩] ∧ getRuns ['a', 'b'] [0] = [⟨0, 2, 0⟩] :=
  ⟨getRuns_fallback_single_run ['a'] [] (Or.inl rfl),
   getRuns_fallback_single_run ['a', 'b'] [0] (Or.inr (by decide))⟩

/-- C4: for a non-empty line whose level array has matching length, the run
list exactly partitions `[0, t.length)`: non-empty, first run starts at 0,
each run ends where the next starts, the last run ends at `t.length`, every
run is non-empty, all indices of a run carry its level, and adjacent runs
have different levels. -/
theorem getRuns_partition (t : List Char) (levels : List Nat)
    (h1 : t ≠ []) (h2 : levels.length = t.length) :
    getRuns t levels ≠ [] ∧
    (∀ r, (getRuns t levels).head? = some r → r.start = 0) ∧
    (∀ r, (getRuns t levels).getLast? = some r → r.«end» = t.length) ∧
    List.Chain' (fun a b => a.«end» = b.start) (getRuns t levels) ∧
    (∀ r ∈ getRuns t levels, r.start < r.«end») ∧
    (∀ r ∈ getRuns t levels, ∀ j, r.start ≤ j → j < r.«end» →
      levels.get? j = some r.level) ∧
    List.Chain' (fun a b => a.level ≠ b.level) (getRuns t levels) := by
  cases levels with
  | nil =>
    exfalso
    apply h1
    apply List.length_eq_zero.1
    simpa using h2.symm
  | cons l0 rest =>
    rw [getRuns_cons_eq t l0 rest h2]
    refine ⟨getRunsAux_ne_nil rest 0 1 l0, ?_, ?_,
      getRunsAux_chain_end_start rest 0 1 l0,
      getRunsAux_pos rest 0 1 l0 (by omega), ?_,
      getRunsAux_chain_level rest 0 1 l0⟩
    · intro r hr
      exact (getRunsAux_head rest 0 1 l0 r hr).1
    · intro r hr
      rw [getRunsAux_last rest 0 1 l0 r hr]
      simp at h2
      omega
    · refine getRunsAux_levels (l0 :: rest) rest 0 1 l0 rfl ?_
      intro j hj1 hj2
      have hj : j = 0 := by omega
      subst hj
      rfl

/-- Witness for C4 at the concrete line "abc" with levels `[0, 0, 1]`. -/
theorem getRuns_partition_witness :
    getRuns ['a', 'b', 'c'] [0, 0, 1] ≠ [] ∧
    (∀ r, (getRuns ['a', 'b', 'c'] [0, 0, 1]).head? = some r → r.start = 0) ∧
    (∀ r, (getRuns ['a', 'b', 'c'] [0, 0, 1]).getLast? = some r →
      r.«end» = (['a', 'b', 'c'] : List Char).length) ∧
    List.Chain' (fun a b => a.«end» = b.start) (getRuns ['a', 'b', 'c'] [0, 0, 1]) ∧
    (∀ r ∈ getRuns ['a', 'b', 'c'] [0, 0, 1], r.start < r.«end») ∧
    (∀ r ∈ getRuns ['a', 'b', 'c'] [0, 0, 1], ∀ j, r.start ≤ j → j < r.«end» →
      ([0, 0, 1] : List Nat).get? j = some r.level) ∧
    List.Chain' (fun a b => a.level ≠ b.level) (getRuns ['a', 'b', 'c'] [0, 0, 1]) :=
  getRuns_partition ['a', 'b', 'c'] [0, 0, 1] (by decide) (by decide)

/-! ## Empty-line shaping (C1) -/

theorem getRuns_nil_text (levels : List Nat) :
    getRuns [] levels = [⟨0, 0, 0⟩] := by
  cases levels with
  | nil =>
    unfold getRuns
    rw [if_pos (show ([] : List Nat).isEmpty = true ∨
      ([] : List Char).length ≠ ([] : List Nat).length from Or.inl rfl)]
    rfl
  | cons l rest =>
    unfold getRuns
    rw [if_pos (Or.inr (by simp))]
    rfl

theorem shapeRunsFold_texts (ctx : Ctx) (useEng : EngineFns) (lt : List Char) :
    ∀ (runs : List Run) (c : Cache),
    (shapeRunsFold ctx useEng lt c runs).1.map (fun s => s.text) =
      runs.map (fun r => sliceChars lt r.start r.«end») := by
  intro runs
  induction runs with
  | nil => intro c; rfl
  | cons r rest ih =>
    intro c
    rw [shapeRunsFold]
    by_cases hi : ctx.isImage (sliceChars lt r.start r.«end») = true
    · rw [if_pos hi]
      simp only [List.map_cons]
      congr 1
      exact ih _
    · rw [if_neg hi]
      simp only [List.map_cons]
      congr 1
      exact ih _

theorem groupsAux_nil_runMap : ∀ (R : List Nat) (i st : Nat),
    groupsAux [] R i st none = [(none, st, i + R.length)] := by
  intro R
  induction R with
  | nil => intro i st; simp [groupsAux]
  | cons r rest ih =>
    intro i st
    rw [groupsAux]
    rw [if_neg (by simp)]
    rw [ih (i + 1) st]
    simp only [List.length_cons, List.cons.injEq, Prod.mk.injEq, and_true,
      true_and]
    omega

theorem computeGroups_nil_runMap (R : List Nat) :
    computeGroups [] R = [(none, 0, R.length)] := by
  unfold computeGroups
  have hc : (R.head?.bind (fun r => ([] : List Nat).get? r)) = none := by
    cases R.head? <;> simp
  rw [hc, groupsAux_nil_runMap R 0 0]
  simp

theorem buildVisualSegs_none_head (ctx : Ctx) (segs : List ShapedRunSegment)
    (reordered : List Nat) (c : Cache) (a b : Nat)
    (gs : List (Option Nat × Nat × Nat)) :
    buildVisualSegs ctx segs reordered c ((none, a, b) :: gs) = none := by
  simp [buildVisualSegs, buildVisualSeg]

/-- Shaping an empty word list always fails: `runMap` and the reordered
index list are empty, so the closing flush dereferences
`shapedRunSegments[undefined]`. -/
theorem shapeLine_empty_none (ctx : Ctx) (useEng : EngineFns)
    (c : Cache) (x : ℚ) (L : Nat) (H W : ℚ) :
    shapeLineWithBidiRuns ctx useEng c [] x L H W = none := by
  unfold shapeLineWithBidiRuns
  dsimp only
  rw [show ([] : List (List Char)).flatten = [] from rfl]
  rw [getRuns_nil_text (ctx.bidiLevels [])]
  have htexts := shapeRunsFold_texts ctx useEng [] [⟨0, 0, 0⟩] c
  rcases hsr : (shapeRunsFold ctx useEng [] c [⟨0, 0, 0⟩]).1 with _ | ⟨s, ss⟩
  · rw [hsr] at htexts
    simp [sliceChars] at htexts
  · rw [hsr] at htexts
    simp only [List.map_cons, List.map_cons, List.map_nil] at htexts
    have hstext : s.text = [] := by
      have := congrArg List.head? htexts
      simpa [sliceChars] using this
    have hss : ss = [] := by
      have := congrArg List.tail htexts
      simpa using this
    have hmap : buildRunMap (s :: ss) = [] := by
      subst hss
      simp [buildRunMap, List.enum, hstext]
    rw [hmap, computeGroups_nil_runMap, buildVisualSegs_none_head]
    rfl

/-- C1 (code_bug): shaping an empty line does not yield zero runs / zero
segments / zero width: `getRuns` returns one fallback run `{0, 0, 0}`, and
`shapeLineWithBidiRuns` dereferences `shapedRunSegments[undefined]` (both
`runMap` and the reconstruction groups are degenerate), i.e. it throws
(`none`) instead of producing a result. -/
theorem shapeLineWithBidiRuns_empty_line (ctx : Ctx) (useEng : EngineFns)
    (c : Cache) (x : ℚ) (L : Nat) (H W : ℚ) :
    shapeLineWithBidiRuns ctx useEng c [] x L H W = none ∧
    getRuns [] (ctx.bidiLevels []) = [⟨0, 0, 0⟩] :=
  ⟨shapeLine_empty_none ctx useEng c x L H W, getRuns_nil_text _⟩

/-! ## Alignment (C8) -/

/-- C8 counterexample: on a line recorded with width 0 (a falsy
`lineWidths[line]`), the `center` shift is skipped entirely, so the final
offset is not `x + (W - w) / 2` as the claim demands. -/
theorem alignedLeftOffset_zero_width_counterexample :
    alignedLeftOffset "center" 10 0 0 = 0 ∧
    (0 : ℚ) + ((10 : ℚ) - 0) / 2 = 5 ∧
    alignedLeftOffset "center" 10 0 0 ≠ (0 : ℚ) + ((10 : ℚ) - 0) / 2 := by
  refine ⟨?_, by norm_num, ?_⟩
  · simp [alignedLeftOffset]
  · simp [alignedLeftOffset]
    norm_num

/-- C8 (amended): provided the recorded line width is nonzero, a segment's
offset is shifted by exactly `(W − w) / 2` for `center`, by `W − w` for
`right`/`end`, and left unchanged for `left`/`start`. -/
theorem alignedLeftOffset_spec (W w x : ℚ) (hw : w ≠ 0) :
    alignedLeftOffset "center" W w x = x + (W - w) / 2 ∧
    alignedLeftOffset "right" W w x = x + (W - w) ∧
    alignedLeftOffset "end" W w x = x + (W - w) ∧
    alignedLeftOffset "left" W w x = x ∧
    alignedLeftOffset "start" W w x = x := by
  refine ⟨?_, ?_, ?_, ?_, ?_⟩
  · unfold alignedLeftOffset
    rw [if_neg (fun h => absurd h.2 (by decide)), if_pos ⟨hw, by decide⟩]
  · unfold alignedLeftOffset
    rw [if_pos ⟨hw, Or.inl rfl⟩]
  · unfold alignedLeftOffset
    rw [if_pos ⟨hw, Or.inr rfl⟩]
  · unfold alignedLeftOffset
    rw [if_neg (fun h => absurd h.2 (by decide)),
      if_neg (fun h => absurd h.2 (by decide))]
  · unfold alignedLeftOffset
    rw [if_neg (fun h => absurd h.2 (by decide)),
      if_neg (fun h => absurd h.2 (by decide))]

/-- Witness for C8 (amended) at `W = 10`, `w = 4`, `x = 1`. -/
theorem alignedLeftOffset_spec_witness :
    alignedLeftOffset "center" 10 4 1 = 1 + ((10 : ℚ) - 4) / 2 ∧
    alignedLeftOffset "right" 10 4 1 = 1 + ((10 : ℚ) - 4) ∧
    alignedLeftOffset "end" 10 4 1 = 1 + ((10 : ℚ) - 4) ∧
    alignedLeftOffset "left" 10 4 1 = 1 ∧
    alignedLeftOffset "start" 10 4 1 = 1 :=
  alignedLeftOffset_spec 10 4 1 (by norm_num)

/-! ## Empty word sequence (C10) -/

/-- C10: with an empty preprocessed word sequence, `flow` reports width 0 and
height 0, records no line (all three accumulator arrays stay empty) and
places no segments. -/
theorem flow_empty_words (ctx : Ctx) (cw fs ls : ℚ) (useEng : EngineFns)
    (c : Cache) :
    flow ctx cw fs ls useEng c [] = some ((0, 0), initFlowState, c) ∧
    initFlowState.lineWidths = [] ∧ initFlowState.baselines = [] ∧
    initFlowState.lineSegmentNumber = [] ∧
    initFlowState.placedSegments = [] := by
  refine ⟨?_, rfl, rfl, rfl, rfl⟩
  unfold flow flowLoop
  simp [initFlowState]

/-! ## Line-break decision (C5) -/

/-- C5 counterexample: the wrap test uses the global word index (`i && ...`),
not "first word of the current line". Here word index 2 is the first word of
the (empty) current line, so the claim predicts no break (the word is
appended); the code instead decides to wrap — and crashes shaping the empty
accumulated line (`none`), so in particular the appended state is never
produced. -/
theorem flowStep_first_word_of_line_counterexample :
    flowStep sampleCtx 3 12 0 sampleEngine initFlowState [] 2 ['X'] false =
      none ∧
    initFlowState.currentLineWords = [] := by
  refine ⟨?_, rfl⟩
  have hm : (measureWord sampleCtx [] ['X'] 12 0).1 = 5 + 0 := rfl
  have hww : willWrap sampleCtx 3 initFlowState
      (measureWord sampleCtx [] ['X'] 12 0).1 2 ['X'] = true := by
    unfold willWrap
    rw [hm]
    rw [decide_eq_true (show initFlowState.currentLineWidth + (5 + 0) > 3 by
      norm_num [initFlowState])]
    rfl
  unfold flowStep
  rw [if_pos (by rw [hww]; rfl)]
  rw [show initFlowState.currentLineWords = ([] : List (List Char)) from rfl]
  rw [shapeLine_empty_none]
  rfl

/-- C5 (amended): a line break occurs at word `i` iff its forced-break flag
is set or `willWrap` holds — where `willWrap` requires the word's global
index `i` to be nonzero (not: the word not being the first of the current
line), its first character to be outside the punctuation set, the
accumulated width plus the word's measured width to exceed the container
width, and soft wrap to be allowed. On a successful soft-wrap break the
triggering word becomes the sole word of the new line; on a forced break the
new line starts empty. -/
theorem flowStep_break_spec (ctx : Ctx) (cw fs ls : ℚ) (useEng : EngineFns)
    (s : FlowState) (c : Cache) (i : Nat) (word : List Char) (fb : Bool) :
    (∀ s' c', flowStep ctx cw fs ls useEng s c i word fb = some (s', c') →
      (s'.lines = s.lines + 1 ↔
        (fb || willWrap ctx cw s (measureWord ctx c word fs ls).1 i word) =
          true)) ∧
    ((fb || willWrap ctx cw s (measureWord ctx c word fs ls).1 i word) =
        false →
      flowStep ctx cw fs ls useEng s c i word fb =
        some ({ s with
                currentLineWords := s.currentLineWords ++ [word],
                currentLineWidth :=
                  s.currentLineWidth + (measureWord ctx c word fs ls).1 },
              (measureWord ctx c word fs ls).2)) ∧
    (fb = false → ∀ s' c',
      flowStep ctx cw fs ls useEng s c i word fb = some (s', c') →
      willWrap ctx cw s (measureWord ctx c word fs ls).1 i word = true →
      s'.currentLineWords = [word] ∧
      s'.currentLineWidth = (measureWord ctx c word fs ls).1) ∧
    (fb = true → ∀ s' c',
      flowStep ctx cw fs ls useEng s c i word fb = some (s', c') →
      s'.currentLineWords = [] ∧ s'.currentLineWidth = 0) := by
  cases hcond : (fb || willWrap ctx cw s (measureWord ctx c word fs ls).1 i word) with
  | false =>
    have hni : ¬ ((fb || willWrap ctx cw s
        (measureWord ctx c word fs ls).1 i word) = true) := by
      rw [hcond]
      exact Bool.false_ne_true
    have hstep : flowStep ctx cw fs ls useEng s c i word fb =
        some ({ s with
                currentLineWords := s.currentLineWords ++ [word],
                currentLineWidth :=
                  s.currentLineWidth + (measureWord ctx c word fs ls).1 },
              (measureWord ctx c word fs ls).2) := by
      unfold flowStep
      rw [if_neg hni]
    refine ⟨?_, fun _ => hstep, ?_, ?_⟩
    · intro s' c' h
      rw [hstep] at h
      injection h with h
      injection h with hs hc
      subst hs
      constructor
      · intro hl
        simp at hl
      · intro htrue
        exact absurd htrue (by decide)
    · intro hfb s' c' _ hww
      rw [hfb] at hcond
      simp at hcond
      exact absurd (hww.symm.trans hcond) (by decide)
    · intro hfb
      rw [hfb] at hcond
      simp at hcond
  | true =>
    have hstep : flowStep ctx cw fs ls useEng s c i word fb =
        (shapeLineWithBidiRuns ctx useEng (measureWord ctx c word fs ls).2
            s.currentLineWords 0 s.lines s.totalHeight cw).map (fun lr =>
          ({ lines := s.lines + 1,
             maxWidth := max s.maxWidth lr.1.width,
             totalHeight := s.totalHeight + lr.1.lineHeight,
             currentLineWords := if fb then [] else [word],
             currentLineWidth :=
               if fb then 0 else (measureWord ctx c word fs ls).1,
             currentLineAscent :=
               if !fb && decide ((measureWord ctx c word fs ls).1 > 0) then
                 max s.currentLineAscent (useEng.baseline word)
               else s.currentLineAscent,
             currentLineBaseline :=
               if !fb && decide ((measureWord ctx c word fs ls).1 > 0) then
                 max s.currentLineAscent (useEng.baseline word)
               else s.currentLineBaseline,
             lineWidths := s.lineWidths ++ [lr.1.width],
             baselines := s.baselines ++ [lr.1.baseline],
             lineSegmentNumber :=
               s.lineSegmentNumber ++ [s.currentLineWords.length],
             placedSegments := s.placedSegments ++ lr.1.segs }, lr.2)) := by
      unfold flowStep
      rw [if_pos hcond]
    refine ⟨?_, ?_, ?_, ?_⟩
    · intro s' c' h
      rw [hstep] at h
      obtain ⟨lr, hlr, heq⟩ := Option.map_eq_some'.1 h
      injection heq with hs hc
      subst hs
      simp
    · intro hfalse
      exact absurd hfalse (by decide)
    · intro hfb s' c' h _
      subst hfb
      rw [hstep] at h
      obtain ⟨lr, hlr, heq⟩ := Option.map_eq_some'.1 h
      injection heq with hs hc
      subst hs
      simp
    · intro hfb s' c' h
      subst hfb
      rw [hstep] at h
      obtain ⟨lr, hlr, heq⟩ := Option.map_eq_some'.1 h
      injection heq with hs hc
      subst hs
      simp

/-- Witness for C5 (amended): at word index 0 no wrap is possible and the
word is appended to the current line. -/
theorem flowStep_break_spec_witness :
    flowStep sampleCtx 100 12 0 sampleEngine initFlowState [] 0 ['a'] false =
      some ({ initFlowState with
              currentLineWords := initFlowState.currentLineWords ++ [['a']],
              currentLineWidth :=
                initFlowState.currentLineWidth +
                  (measureWord sampleCtx [] ['a'] 12 0).1 },
            (measureWord sampleCtx [] ['a'] 12 0).2) :=
  (flowStep_break_spec sampleCtx 100 12 0 sampleEngine initFlowState [] 0
    ['a'] false).2.1 (by rfl)

/-! ## Line limit (C6) -/

theorem shapeLine_segs_line (ctx : Ctx) (useEng : EngineFns) (c : Cache)
    (lw : List (List Char)) (x : ℚ) (L : Nat) (H W : ℚ)
    (lr : ShapeResult × Cache)
    (h : shapeLineWithBidiRuns ctx useEng c lw x L H W = some lr) :
    ∀ seg ∈ lr.1.segs, seg.line = L := by
  unfold shapeLineWithBidiRuns at h
  obtain ⟨bv, hbv, heq⟩ := Option.map_eq_some'.1 h
  subst heq
  intro seg hseg
  simp only at hseg
  obtain ⟨p, hp, rfl⟩ := List.mem_map.1 hseg
  rfl

theorem flowStep_inv (ctx : Ctx) (cw fs ls : ℚ) (useEng : EngineFns)
    (s : FlowState) (c : Cache) (i : Nat) (word : List Char) (fb : Bool)
    (s' : FlowState) (c' : Cache)
    (h : flowStep ctx cw fs ls useEng s c i word fb = some (s', c'))
    (hinv : FlowInv s) :
    FlowInv s' ∧ s'.lines ≤ s.lines + 1 := by
  obtain ⟨h1, h2, h3, h4⟩ := hinv
  unfold flowStep at h
  by_cases hcond : (fb || willWrap ctx cw s
      (measureWord ctx c word fs ls).1 i word) = true
  · rw [if_pos hcond] at h
    obtain ⟨lr, hlr, heq⟩ := Option.map_eq_some'.1 h
    injection heq with hs hc
    subst hs
    refine ⟨⟨?_, ?_, ?_, ?_⟩, ?_⟩
    · show (s.lineWidths ++ [lr.1.width]).length = s.lines + 1
      simp [h1]
    · show (s.baselines ++ [lr.1.baseline]).length = s.lines + 1
      simp [h2]
    · show (s.lineSegmentNumber ++ [s.currentLineWords.length]).length =
        s.lines + 1
      simp [h3]
    · show ∀ seg ∈ s.placedSegments ++ lr.1.segs, seg.line < s.lines + 1
      intro seg hseg
      rcases List.mem_append.1 hseg with hm | hm
      · exact Nat.lt_succ_of_lt (h4 seg hm)
      · rw [shapeLine_segs_line ctx useEng _ _ _ _ _ _ lr hlr seg hm]
        omega
    · exact Nat.le_refl (s.lines + 1)
  · rw [if_neg hcond] at h
    injection h with h
    injection h with hs hc
    subst hs
    exact ⟨⟨h1, h2, h3, h4⟩, Nat.le_succ _⟩

theorem flowLoop_stop (ctx : Ctx) (cw fs ls : ℚ) (useEng : EngineFns)
    (ws : List (List Char × Bool)) (s : FlowState) (c : Cache) (i : Nat)
    (h : ctx.lineLimit ≤ s.lines) :
    flowLoop ctx cw fs ls useEng s c ws i = some (s, c) := by
  cases ws with
  | nil => rfl
  | cons wf rest =>
    obtain ⟨word, fb⟩ := wf
    rw [flowLoop, if_neg (by omega)]

theorem flowLoop_inv (ctx : Ctx) (cw fs ls : ℚ) (useEng : EngineFns) :
    ∀ (ws : List (List Char × Bool)) (s : FlowState) (c : Cache) (i : Nat)
    (s' : FlowState) (c' : Cache),
    flowLoop ctx cw fs ls useEng s c ws i = some (s', c') →
    FlowInv s → s.lines ≤ ctx.lineLimit →
    FlowInv s' ∧ s'.lines ≤ ctx.lineLimit := by
  intro ws
  induction ws with
  | nil =>
    intro s c i s' c' h hinv hle
    injection h with h
    injection h with hs hc
    subst hs
    exact ⟨hinv, hle⟩
  | cons wf rest ih =>
    obtain ⟨word, fb⟩ := wf
    intro s c i s' c' h hinv hle
    rw [flowLoop] at h
    by_cases hl : s.lines < ctx.lineLimit
    · rw [if_pos hl] at h
      obtain ⟨sc, hstep, hloop⟩ := Option.bind_eq_some.1 h
      obtain ⟨hinv1, hlines⟩ := flowStep_inv ctx cw fs ls useEng s c i word fb
        sc.1 sc.2 hstep hinv
      exact ih sc.1 sc.2 (i + 1) s' c' hloop hinv1 (by omega)
    · rw [if_neg hl] at h
      injection h with h
      injection h with hs hc
      subst hs
      exact ⟨hinv, hle⟩

/-- C6: `flow` records at most `lineLimit` lines — once the limit is reached
the word loop consumes nothing further and returns the state unchanged (the
remaining words are silently dropped, no error), and in any successful flow
the accumulator arrays have at most `lineLimit` entries and every placed
segment lies on a line below the limit. -/
theorem flow_line_limit (ctx : Ctx) (cw fs ls : ℚ) (useEng : EngineFns) :
    (∀ (s : FlowState) (c : Cache) (ws : List (List Char × Bool)) (i : Nat),
      ctx.lineLimit ≤ s.lines →
      flowLoop ctx cw fs ls useEng s c ws i = some (s, c)) ∧
    (∀ (c : Cache) (ws : List (List Char × Bool)) r st c',
      flow ctx cw fs ls useEng c ws = some (r, st, c') →
      st.lineWidths.length ≤ ctx.lineLimit ∧
      st.baselines.length ≤ ctx.lineLimit ∧
      st.lineSegmentNumber.length ≤ ctx.lineLimit ∧
      ∀ seg ∈ st.placedSegments, seg.line < ctx.lineLimit) := by
  constructor
  · intro s c ws i h
    exact flowLoop_stop ctx cw fs ls useEng ws s c i h
  · intro c ws r st c' h
    unfold flow at h
    obtain ⟨sc, hloop, hrest⟩ := Option.bind_eq_some.1 h
    obtain ⟨⟨i1, i2, i3, i4⟩, hle⟩ := flowLoop_inv ctx cw fs ls useEng ws
      initFlowState c 0 sc.1 sc.2 hloop
      ⟨rfl, rfl, rfl, by intro seg hseg; simp [initFlowState] at hseg⟩
      (by simp [initFlowState])
    by_cases hff : sc.1.currentLineWords.length ≠ 0 ∧
        sc.1.lines < ctx.lineLimit
    · rw [if_pos hff] at hrest
      obtain ⟨lr, hlr, heq⟩ := Option.map_eq_some'.1 hrest
      simp only at heq
      injection heq with hr h23
      injection h23 with hst hc
      subst hst
      refine ⟨?_, ?_, ?_, ?_⟩
      · simp only [List.length_append, List.length_singleton, i1]
        omega
      · simp only [List.length_append, List.length_singleton, i2]
        omega
      · simp only [List.length_append, List.length_singleton, i3]
        omega
      · intro seg hseg
        simp only at hseg
        rcases List.mem_append.1 hseg with hm | hm
        · exact Nat.lt_of_lt_of_le (i4 seg hm) hle
        · rw [shapeLine_segs_line ctx useEng _ _ _ _ _ _ lr hlr seg hm]
          omega
    · rw [if_neg hff] at hrest
      injection hrest with hrest
      injection hrest with hr h23
      injection h23 with hst hc
      subst hst
      refine ⟨by omega, by omega, by omega, ?_⟩
      intro seg hseg
      exact Nat.lt_of_lt_of_le (i4 seg hseg) hle

/-- Witness for C6: a successful concrete flow (empty word list) respects the
line limit. -/
theorem flow_line_limit_witness :
    initFlowState.lineWidths.length ≤ sampleCtx.lineLimit ∧
    initFlowState.baselines.length ≤ sampleCtx.lineLimit ∧
    initFlowState.lineSegmentNumber.length ≤ sampleCtx.lineLimit ∧
    ∀ seg ∈ initFlowState.placedSegments, seg.line < sampleCtx.lineLimit :=
  (flow_line_limit sampleCtx 100 12 0 sampleEngine).2 [] [] (0, 0)
    initFlowState []
    (by unfold flow flowLoop; simp [initFlowState])

/-! ## Font-fit binary search (C7) -/

theorem bestFitFontSize_finds_max (h : Nat → ℚ) (ch : ℚ) (T M : Nat)
    (mono : ∀ a b, a ≤ b → h a ≤ h b)
    (hTfit : h T ≤ ch) (hTmax : ∀ s, s ≤ M → h s ≤ ch → s ≤ T) :
    ∀ (fuel lo hi best : Nat), hi + 1 - lo ≤ fuel → hi ≤ M →
    ((lo ≤ T ∧ T ≤ hi) ∨ (best = T ∧ T < lo)) →
    bestFitFontSize h ch fuel lo hi best = T := by
  intro fuel
  induction fuel with
  | zero =>
    intro lo hi best hfuel _ hJ
    rcases hJ with ⟨hlo, hhi⟩ | ⟨hb, _⟩
    · omega
    · rw [bestFitFontSize]
      exact hb
  | succ fuel ih =>
    intro lo hi best hfuel hhiM hJ
    rw [bestFitFontSize]
    by_cases hlohi : lo ≤ hi
    · rw [if_pos hlohi]
      have hmid_ge : lo ≤ (lo + hi) / 2 := by omega
      have hmid_le : (lo + hi) / 2 ≤ hi := by omega
      by_cases hfit : h ((lo + hi) / 2) ≤ ch
      · rw [if_pos hfit]
        have hmidT : (lo + hi) / 2 ≤ T :=
          hTmax _ (le_trans hmid_le hhiM) hfit
        apply ih
        · omega
        · exact hhiM
        · rcases hJ with ⟨hlo, hhi⟩ | ⟨hb, hTlo⟩
          · by_cases hc : (lo + hi) / 2 + 1 ≤ T
            · exact Or.inl ⟨hc, hhi⟩
            · exact Or.inr ⟨by omega, by omega⟩
          · exact absurd hmidT (by omega)
      · rw [if_neg hfit]
        have hmidT : T < (lo + hi) / 2 := by
          by_contra hc
          push_neg at hc
          exact hfit (le_trans (mono _ T hc) hTfit)
        apply ih
        · omega
        · omega
        · rcases hJ with ⟨hlo, hhi⟩ | ⟨hb, hTlo⟩
          · exact Or.inl ⟨hlo, by omega⟩
          · exact Or.inr ⟨hb, hTlo⟩
    · rw [if_neg hlohi]
      rcases hJ with ⟨hlo, hhi⟩ | ⟨hb, _⟩
      · omega
      · exact hb

theorem bestFitFontSize_no_fit (h : Nat → ℚ) (ch : ℚ) :
    ∀ (fuel lo hi best : Nat), (∀ s, lo ≤ s → ch < h s) →
    bestFitFontSize h ch fuel lo hi best = best := by
  intro fuel
  induction fuel with
  | zero =>
    intro lo hi best _
    rw [bestFitFontSize]
  | succ fuel ih =>
    intro lo hi best hno
    rw [bestFitFontSize]
    by_cases hlohi : lo ≤ hi
    · rw [if_pos hlohi]
      rw [if_neg (not_le.2 (hno _ (by omega)))]
      exact ih lo ((lo + hi) / 2 - 1) best hno
    · rw [if_neg hlohi]

/-- C7 (amended): the final size is found by integer binary search over
`[10, maxFontSize || 120]` and the reported measurement is the result of one
final `flow` at that size (ceiled width). Assuming the measured height is
nondecreasing in the font size: when size 10 fits, the chosen size is the
largest fitting size of the range, so it satisfies
`measuredHeight(size) ≤ availableHeight` and, whenever `size + 1` is still
inside the range (hence was tried), `size + 1` does not fit; when even size
10 does not fit, 10 is chosen although it does not fit. -/
theorem multilineMeasure_spec (flowAt : Nat → ℚ × ℚ) (ch : ℚ)
    (mfs : Option Nat) (hM : 10 ≤ mfs.getD 120)
    (mono : ∀ a b, a ≤ b → (flowAt a).2 ≤ (flowAt b).2) :
    ((multilineMeasure flowAt ch mfs).1 =
      (((⌈(flowAt (multilineMeasure flowAt ch mfs).2).1⌉ : ℤ) : ℚ),
        (flowAt (multilineMeasure flowAt ch mfs).2).2)) ∧
    ((flowAt 10).2 ≤ ch →
      (flowAt (multilineMeasure flowAt ch mfs).2).2 ≤ ch ∧
      10 ≤ (multilineMeasure flowAt ch mfs).2 ∧
      (multilineMeasure flowAt ch mfs).2 ≤ mfs.getD 120 ∧
      ((multilineMeasure flowAt ch mfs).2 < mfs.getD 120 →
        ch < (flowAt ((multilineMeasure flowAt ch mfs).2 + 1)).2)) ∧
    (ch < (flowAt 10).2 → (multilineMeasure flowAt ch mfs).2 = 10) := by
  refine ⟨rfl, ?_, ?_⟩
  · intro hfit10
    set h : Nat → ℚ := fun s => (flowAt s).2 with hh
    set M : Nat := mfs.getD 120 with hMdef
    set T : Nat := Nat.findGreatest (fun s => h s ≤ ch) M with hT
    have hTfit : h T ≤ ch := by
      rw [hT]
      exact Nat.findGreatest_spec (P := fun s => h s ≤ ch) hM hfit10
    have hT10 : 10 ≤ T := by
      rw [hT]
      exact Nat.le_findGreatest (P := fun s => h s ≤ ch) hM hfit10
    have hTM : T ≤ M := by
      rw [hT]
      exact Nat.findGreatest_le (P := fun s => h s ≤ ch) M
    have hTmax : ∀ s, s ≤ M → h s ≤ ch → s ≤ T := by
      intro s hsM hsfit
      by_contra hc
      push_neg at hc
      exact Nat.findGreatest_is_greatest (P := fun s => h s ≤ ch) hc hsM hsfit
    have hbest : (multilineMeasure flowAt ch mfs).2 = T := by
      show bestFitFontSize h ch (M + 1 - 10) 10 M 10 = T
      exact bestFitFontSize_finds_max h ch T M mono hTfit hTmax
        (M + 1 - 10) 10 M 10 (by omega) (le_refl M) (Or.inl ⟨hT10, hTM⟩)
    rw [hbest]
    refine ⟨hTfit, hT10, hTM, ?_⟩
    intro hlt
    by_contra hc
    push_neg at hc
    have := hTmax (T + 1) (by omega) hc
    omega
  · intro hno10
    have hno : ∀ s, 10 ≤ s → ch < (fun s => (flowAt s).2) s := by
      intro s hs
      exact lt_of_lt_of_le hno10 (mono 10 s hs)
    show bestFitFontSize (fun s => (flowAt s).2) ch
      (mfs.getD 120 + 1 - 10) 10 (mfs.getD 120) 10 = 10
    exact bestFitFontSize_no_fit _ ch _ 10 (mfs.getD 120) 10 hno

/-- C7 counterexample: when no size in the range fits (available height 0,
constant measured height 1), the search still returns the minimum 10, whose
measured height exceeds the available height — the chosen size does not
satisfy `measuredHeight(size) ≤ availableHeight`. -/
theorem multilineMeasure_no_fit_counterexample :
    (multilineMeasure (fun _ => ((0 : ℚ), (1 : ℚ))) 0 none).2 = 10 ∧
    ¬ ((fun (_ : Nat) => ((0 : ℚ), (1 : ℚ)))
        ((multilineMeasure (fun _ => ((0 : ℚ), (1 : ℚ))) 0 none).2)).2 ≤ 0 := by
  have h10 : (multilineMeasure (fun _ => ((0 : ℚ), (1 : ℚ))) 0 none).2 = 10 := by
    show bestFitFontSize (fun _ => (1 : ℚ)) 0 (120 + 1 - 10) 10 120 10 = 10
    exact bestFitFontSize_no_fit _ 0 _ 10 120 10 (fun s _ => by norm_num)
  refine ⟨h10, ?_⟩
  norm_num

/-- Witness for C7 (amended) with a constant zero height: every size fits,
so the search returns the top of the range, 120. -/
theorem multilineMeasure_spec_witness :
    ((multilineMeasure (fun _ => ((0 : ℚ), (0 : ℚ))) 0 none).1 =
      (((⌈(((fun (_ : Nat) => ((0 : ℚ), (0 : ℚ)))
            ((multilineMeasure (fun _ => ((0 : ℚ), (0 : ℚ))) 0 none).2)).1)⌉ : ℤ) : ℚ),
        (((fun (_ : Nat) => ((0 : ℚ), (0 : ℚ)))
            ((multilineMeasure (fun _ => ((0 : ℚ), (0 : ℚ))) 0 none).2)).2))) ∧
    ((((fun (_ : Nat) => ((0 : ℚ), (0 : ℚ))) 10).2 ≤ (0 : ℚ)) →
      (((fun (_ : Nat) => ((0 : ℚ), (0 : ℚ)))
          ((multilineMeasure (fun _ => ((0 : ℚ), (0 : ℚ))) 0 none).2)).2 ≤ (0 : ℚ) ∧
      10 ≤ (multilineMeasure (fun _ => ((0 : ℚ), (0 : ℚ))) 0 none).2 ∧
      (multilineMeasure (fun _ => ((0 : ℚ), (0 : ℚ))) 0 none).2 ≤
        (none : Option Nat).getD 120 ∧
      ((multilineMeasure (fun _ => ((0 : ℚ), (0 : ℚ))) 0 none).2 <
          (none : Option Nat).getD 120 →
        (0 : ℚ) < (((fun (_ : Nat) => ((0 : ℚ), (0 : ℚ)))
          ((multilineMeasure (fun _ => ((0 : ℚ), (0 : ℚ))) 0 none).2 + 1)).2)))) ∧
    ((0 : ℚ) < ((fun (_ : Nat) => ((0 : ℚ), (0 : ℚ))) 10).2 →
      (multilineMeasure (fun _ => ((0 : ℚ), (0 : ℚ))) 0 none).2 = 10) :=
  multilineMeasure_spec (fun _ => ((0 : ℚ), (0 : ℚ))) 0 none (by decide)
    (fun _ _ _ => le_refl 0)

/-! ## Cache monotonicity and stability of the shaper (for C9) -/

theorem shapeRunsFold_cons_image (ctx : Ctx) (useEng : EngineFns)
    (lt : List Char) (c : Cache) (r : Run) (rest : List Run)
    (hi : ctx.isImage (sliceChars lt r.start r.«end») = true) :
    shapeRunsFold ctx useEng lt c (r :: rest) =
      ({ text := sliceChars lt r.start r.«end», width := ctx.fontSize,
         isRTL := r.level % 2 == 1, isImage := true } ::
           (shapeRunsFold ctx useEng lt c rest).1,
       max (useEng.baseline (sliceChars lt r.start r.«end»))
         (shapeRunsFold ctx useEng lt c rest).2.1,
       max (useEng.height (sliceChars lt r.start r.«end») -
            useEng.baseline (sliceChars lt r.start r.«end»))
         (shapeRunsFold ctx useEng lt c rest).2.2.1,
       (shapeRunsFold ctx useEng lt c rest).2.2.2) := by
  rw [shapeRunsFold, if_pos hi]

theorem shapeRunsFold_cons_glyph (ctx : Ctx) (useEng : EngineFns)
    (lt : List Char) (c : Cache) (r : Run) (rest : List Run)
    (hi : ctx.isImage (sliceChars lt r.start r.«end») = false) :
    shapeRunsFold ctx useEng lt c (r :: rest) =
      ({ text := sliceChars lt r.start r.«end»,
         width := (measureText ctx c (sliceChars lt r.start r.«end»)
           ctx.fontSize ctx.letterSpacing).1,
         isRTL := r.level % 2 == 1, isImage := false } ::
           (shapeRunsFold ctx useEng lt
             (measureText ctx c (sliceChars lt r.start r.«end»)
               ctx.fontSize ctx.letterSpacing).2 rest).1,
       max (useEng.baseline (sliceChars lt r.start r.«end»))
         (shapeRunsFold ctx useEng lt
           (measureText ctx c (sliceChars lt r.start r.«end»)
             ctx.fontSize ctx.letterSpacing).2 rest).2.1,
       max (useEng.height (sliceChars lt r.start r.«end») -
            useEng.baseline (sliceChars lt r.start r.«end»))
         (shapeRunsFold ctx useEng lt
           (measureText ctx c (sliceChars lt r.start r.«end»)
             ctx.fontSize ctx.letterSpacing).2 rest).2.2.1,
       (shapeRunsFold ctx useEng lt
         (measureText ctx c (sliceChars lt r.start r.«end»)
           ctx.fontSize ctx.letterSpacing).2 rest).2.2.2) := by
  rw [shapeRunsFold, if_neg (by simp [hi])]

theorem shapeRunsFold_grow (ctx : Ctx) (useEng : EngineFns) (lt : List Char) :
    ∀ (runs : List Run) (c : Cache),
    cacheLe c (shapeRunsFold ctx useEng lt c runs).2.2.2 := by
  intro runs
  induction runs with
  | nil => intro c; exact cacheLe_refl c
  | cons r rest ih =>
    intro c
    cases hi : ctx.isImage (sliceChars lt r.start r.«end») with
    | true =>
      rw [shapeRunsFold_cons_image ctx useEng lt c r rest hi]
      exact ih c
    | false =>
      rw [shapeRunsFold_cons_glyph ctx useEng lt c r rest hi]
      exact cacheLe_trans
        (measureText_grow ctx c (sliceChars lt r.start r.«end»)
          ctx.fontSize ctx.letterSpacing)
        (ih _)

theorem shapeRunsFold_stable (ctx : Ctx) (useEng : EngineFns) (lt : List Char) :
    ∀ (runs : List Run) (c d : Cache),
    cacheLe (shapeRunsFold ctx useEng lt c runs).2.2.2 d →
    shapeRunsFold ctx useEng lt d runs =
      ((shapeRunsFold ctx useEng lt c runs).1,
       (shapeRunsFold ctx useEng lt c runs).2.1,
       (shapeRunsFold ctx useEng lt c runs).2.2.1, d) := by
  intro runs
  induction runs with
  | nil => intro c d _; rfl
  | cons r rest ih =>
    intro c d h
    cases hi : ctx.isImage (sliceChars lt r.start r.«end») with
    | true =>
      rw [shapeRunsFold_cons_image ctx useEng lt c r rest hi] at h ⊢
      rw [shapeRunsFold_cons_image ctx useEng lt d r rest hi]
      rw [ih c d h]
    | false =>
      rw [shapeRunsFold_cons_glyph ctx useEng lt c r rest hi] at h ⊢
      rw [shapeRunsFold_cons_glyph ctx useEng lt d r rest hi]
      have hm : cacheLe (measureText ctx c (sliceChars lt r.start r.«end»)
          ctx.fontSize ctx.letterSpacing).2 d :=
        cacheLe_trans (shapeRunsFold_grow ctx useEng lt rest _) h
      rw [measureText_stable ctx c d (sliceChars lt r.start r.«end»)
        ctx.fontSize ctx.letterSpacing hm]
      rw [ih _ d h]

theorem buildVisualSeg_grow (ctx : Ctx) (segs : List ShapedRunSegment)
    (reordered : List Nat) (g : Option Nat × Nat × Nat) (c : Cache)
    (v : VisSeg) (c' : Cache)
    (h : buildVisualSeg ctx c segs reordered g = some (v, c')) :
    cacheLe c c' := by
  obtain ⟨og, a, b⟩ := g
  cases og with
  | none => exact Option.noConfusion h
  | some segIndex =>
    rw [buildVisualSeg] at h
    cases hs : segs.get? segIndex with
    | none =>
      rw [hs] at h
      exact Option.noConfusion h
    | some seg =>
      rw [hs] at h
      dsimp only at h
      injection h with h
      injection h with hv hc
      subst hc
      exact measureText_grow ctx c _ ctx.fontSize ctx.letterSpacing

theorem buildVisualSeg_stable (ctx : Ctx) (segs : List ShapedRunSegment)
    (reordered : List Nat) (g : Option Nat × Nat × Nat) (c d : Cache)
    (v : VisSeg) (c' : Cache)
    (h : buildVisualSeg ctx c segs reordered g = some (v, c'))
    (hle : cacheLe c' d) :
    buildVisualSeg ctx d segs reordered g = some (v, d) := by
  obtain ⟨og, a, b⟩ := g
  cases og with
  | none => exact Option.noConfusion h
  | some segIndex =>
    rw [buildVisualSeg] at h ⊢
    cases hs : segs.get? segIndex with
    | none =>
      rw [hs] at h
      exact Option.noConfusion h
    | some seg =>
      rw [hs] at h
      dsimp only at h ⊢
      injection h with h
      injection h with hv hc
      subst hc
      rw [measureText_stable ctx c d _ ctx.fontSize ctx.letterSpacing hle]
      rw [← hv]

theorem buildVisualSegs_grow (ctx : Ctx) (segs : List ShapedRunSegment)
    (reordered : List Nat) :
    ∀ (gs : List (Option Nat × Nat × Nat)) (c : Cache) (vs : List VisSeg)
    (c' : Cache),
    buildVisualSegs ctx segs reordered c gs = some (vs, c') → cacheLe c c' := by
  intro gs
  induction gs with
  | nil =>
    intro c vs c' h
    injection h with h
    injection h with hv hc
    subst hc
    exact cacheLe_refl c
  | cons g rest ih =>
    intro c vs c' h
    rw [buildVisualSegs] at h
    obtain ⟨vc, hv, hrest⟩ := Option.bind_eq_some.1 h
    obtain ⟨rc, hrc, heq⟩ := Option.map_eq_some'.1 hrest
    injection heq with h1 h2
    subst h2
    exact cacheLe_trans
      (buildVisualSeg_grow ctx segs reordered g c vc.1 vc.2 hv)
      (ih vc.2 rc.1 rc.2 hrc)

theorem buildVisualSegs_stable (ctx : Ctx) (segs : List ShapedRunSegment)
    (reordered : List Nat) :
    ∀ (gs : List (Option Nat × Nat × Nat)) (c d : Cache) (vs : List VisSeg)
    (c' : Cache),
    buildVisualSegs ctx segs reordered c gs = some (vs, c') →
    cacheLe c' d →
    buildVisualSegs ctx segs reordered d gs = some (vs, d) := by
  intro gs
  induction gs with
  | nil =>
    intro c d vs c' h hle
    injection h with h
    injection h with hv hc
    subst hv
    rfl
  | cons g rest ih =>
    intro c d vs c' h hle
    rw [buildVisualSegs] at h ⊢
    obtain ⟨vc, hv, hrest⟩ := Option.bind_eq_some.1 h
    obtain ⟨rc, hrc, heq⟩ := Option.map_eq_some'.1 hrest
    injection heq with h1 h2
    subst h2
    have hle1 : cacheLe vc.2 d :=
      cacheLe_trans (buildVisualSegs_grow ctx segs reordered rest vc.2
        rc.1 rc.2 hrc) hle
    rw [buildVisualSeg_stable ctx segs reordered g c d vc.1 vc.2
      (by rw [← hv]) hle1]
    show Option.map (fun rest => (vc.1 :: rest.1, rest.2))
      (buildVisualSegs ctx segs reordered d rest) = some (vs, d)
    rw [ih vc.2 d rc.1 rc.2 hrc hle]
    simp [← h1]

theorem shapeLine_grow (ctx : Ctx) (useEng : EngineFns) (c : Cache)
    (lw : List (List Char)) (x : ℚ) (L : Nat) (H W : ℚ) (res : ShapeResult)
    (c' : Cache)
    (h : shapeLineWithBidiRuns ctx useEng c lw x L H W = some (res, c')) :
    cacheLe c c' := by
  unfold shapeLineWithBidiRuns at h
  obtain ⟨bv, hbv, heq⟩ := Option.map_eq_some'.1 h
  injection heq with h1 h2
  subst h2
  exact cacheLe_trans (shapeRunsFold_grow ctx useEng lw.flatten _ c)
    (buildVisualSegs_grow ctx _ _ _ _ bv.1 bv.2 hbv)

theorem shapeLine_stable (ctx : Ctx) (useEng : EngineFns) (c d : Cache)
    (lw : List (List Char)) (x : ℚ) (L : Nat) (H W : ℚ) (res : ShapeResult)
    (c' : Cache)
    (h : shapeLineWithBidiRuns ctx useEng c lw x L H W = some (res, c'))
    (hle : cacheLe c' d) :
    shapeLineWithBidiRuns ctx useEng d lw x L H W = some (res, d) := by
  unfold shapeLineWithBidiRuns at h ⊢
  obtain ⟨bv, hbv, heq⟩ := Option.map_eq_some'.1 h
  injection heq with h1 h2
  subst h2
  have hsle : cacheLe (shapeRunsFold ctx useEng lw.flatten c
      (getRuns lw.flatten (ctx.bidiLevels lw.flatten))).2.2.2 d :=
    cacheLe_trans (buildVisualSegs_grow ctx _ _ _ _ bv.1 bv.2 hbv) hle
  dsimp only
  rw [shapeRunsFold_stable ctx useEng lw.flatten _ c d hsle]
  dsimp only
  rw [buildVisualSegs_stable ctx _ _ _ _ d bv.1 bv.2 hbv hle]
  dsimp only [Option.map_some']
  rw [← h1]

theorem measureWord_grow (ctx : Ctx) (c : Cache) (word : List Char)
    (fs ls : ℚ) : cacheLe c (measureWord ctx c word fs ls).2 := by
  unfold measureWord
  by_cases hi : ctx.isImage word = true
  · rw [if_pos hi]
    exact cacheLe_refl c
  · rw [if_neg hi]
    exact measureText_grow ctx c word fs ls

theorem measureWord_stable (ctx : Ctx) (c d : Cache) (word : List Char)
    (fs ls : ℚ) (h : cacheLe (measureWord ctx c word fs ls).2 d) :
    measureWord ctx d word fs ls = ((measureWord ctx c word fs ls).1, d) := by
  unfold measureWord at h ⊢
  cases hi : ctx.isImage word with
  | true => simp [hi]
  | false =>
    simp only [hi, Bool.false_eq_true, if_false] at h ⊢
    exact measureText_stable ctx c d word fs ls h

theorem flowStep_grow (ctx : Ctx) (cw fs ls : ℚ) (useEng : EngineFns)
    (s : FlowState) (c : Cache) (i : Nat) (word : List Char) (fb : Bool)
    (s' : FlowState) (c' : Cache)
    (h : flowStep ctx cw fs ls useEng s c i word fb = some (s', c')) :
    cacheLe c c' := by
  unfold flowStep at h
  by_cases hcond : (fb || willWrap ctx cw s
      (measureWord ctx c word fs ls).1 i word) = true
  · rw [if_pos hcond] at h
    obtain ⟨lr, hlr, heq⟩ := Option.map_eq_some'.1 h
    injection heq with h1 h2
    subst h2
    exact cacheLe_trans (measureWord_grow ctx c word fs ls)
      (shapeLine_grow ctx useEng _ _ _ _ _ _ lr.1 lr.2 hlr)
  · rw [if_neg hcond] at h
    injection h with h
    injection h with h1 h2
    subst h2
    exact measureWord_grow ctx c word fs ls

theorem flowStep_stable (ctx : Ctx) (cw fs ls : ℚ) (useEng : EngineFns)
    (s : FlowState) (c d : Cache) (i : Nat) (word : List Char) (fb : Bool)
    (s' : FlowState) (c' : Cache)
    (h : flowStep ctx cw fs ls useEng s c i word fb = some (s', c'))
    (hle : cacheLe c' d) :
    flowStep ctx cw fs ls useEng s d i word fb = some (s', d) := by
  unfold flowStep at h ⊢
  by_cases hcond : (fb || willWrap ctx cw s
      (measureWord ctx c word fs ls).1 i word) = true
  · rw [if_pos hcond] at h
    obtain ⟨lr, hlr, heq⟩ := Option.map_eq_some'.1 h
    injection heq with h1 h2
    subst h2
    have hmle : cacheLe (measureWord ctx c word fs ls).2 d :=
      cacheLe_trans (shapeLine_grow ctx useEng _ _ _ _ _ _ lr.1 lr.2 hlr) hle
    rw [measureWord_stable ctx c d word fs ls hmle]
    dsimp only
    rw [if_pos hcond]
    rw [shapeLine_stable ctx useEng _ d _ _ _ _ _ lr.1 lr.2 hlr hle]
    dsimp only [Option.map_some']
    rw [← h1]
  · rw [if_neg hcond] at h
    injection h with h
    injection h with h1 h2
    subst h2
    rw [measureWord_stable ctx c d word fs ls hle]
    dsimp only
    rw [if_neg hcond]
    rw [← h1]

theorem some_bind_eq {α β : Type} (a : α) (f : α → Option β) :
    (some a).bind f = f a := rfl

theorem flowLoop_grow (ctx : Ctx) (cw fs ls : ℚ) (useEng : EngineFns) :
    ∀ (ws : List (List Char × Bool)) (s : FlowState) (c : Cache) (i : Nat)
    (s' : FlowState) (c' : Cache),
    flowLoop ctx cw fs ls useEng s c ws i = some (s', c') → cacheLe c c' := by
  intro ws
  induction ws with
  | nil =>
    intro s c i s' c' h
    injection h with h
    injection h with h1 h2
    subst h2
    exact cacheLe_refl c
  | cons wf rest ih =>
    obtain ⟨word, fb⟩ := wf
    intro s c i s' c' h
    rw [flowLoop] at h
    by_cases hl : s.lines < ctx.lineLimit
    · rw [if_pos hl] at h
      obtain ⟨sc, hstep, hloop⟩ := Option.bind_eq_some.1 h
      exact cacheLe_trans
        (flowStep_grow ctx cw fs ls useEng s c i word fb sc.1 sc.2 hstep)
        (ih sc.1 sc.2 (i + 1) s' c' hloop)
    · rw [if_neg hl] at h
      injection h with h
      injection h with h1 h2
      subst h2
      exact cacheLe_refl c

theorem flowLoop_stable (ctx : Ctx) (cw fs ls : ℚ) (useEng : EngineFns) :
    ∀ (ws : List (List Char × Bool)) (s : FlowState) (c d : Cache) (i : Nat)
    (s' : FlowState) (c' : Cache),
    flowLoop ctx cw fs ls useEng s c ws i = some (s', c') → cacheLe c' d →
    flowLoop ctx cw fs ls useEng s d ws i = some (s', d) := by
  intro ws
  induction ws with
  | nil =>
    intro s c d i s' c' h hle
    injection h with h
    injection h with h1 h2
    subst h1
    rfl
  | cons wf rest ih =>
    obtain ⟨word, fb⟩ := wf
    intro s c d i s' c' h hle
    rw [flowLoop] at h ⊢
    by_cases hl : s.lines < ctx.lineLimit
    · rw [if_pos hl] at h ⊢
      obtain ⟨sc, hstep, hloop⟩ := Option.bind_eq_some.1 h
      have hscd : cacheLe sc.2 d :=
        cacheLe_trans
          (flowLoop_grow ctx cw fs ls useEng rest sc.1 sc.2 (i + 1) s' c' hloop)
          hle
      rw [flowStep_stable ctx cw fs ls useEng s c d i word fb sc.1 sc.2
        hstep hscd]
      rw [some_bind_eq]
      dsimp only
      exact ih sc.1 sc.2 d (i + 1) s' c' hloop hle
    · rw [if_neg hl] at h ⊢
      injection h with h
      injection h with h1 h2
      subst h1
      rfl

theorem flow_grow (ctx : Ctx) (cw fs ls : ℚ) (useEng : EngineFns) (c : Cache)
    (ws : List (List Char × Bool)) (r : ℚ × ℚ) (st : FlowState) (c' : Cache)
    (h : flow ctx cw fs ls useEng c ws = some (r, st, c')) : cacheLe c c' := by
  unfold flow at h
  obtain ⟨sc, hloop, hrest⟩ := Option.bind_eq_some.1 h
  have h1 := flowLoop_grow ctx cw fs ls useEng ws initFlowState c 0
    sc.1 sc.2 hloop
  by_cases hff : sc.1.currentLineWords.length ≠ 0 ∧
      sc.1.lines < ctx.lineLimit
  · rw [if_pos hff] at hrest
    obtain ⟨lr, hlr, heq⟩ := Option.map_eq_some'.1 hrest
    dsimp only at heq
    injection heq with ha hb
    injection hb with hb hc
    subst hc
    exact cacheLe_trans h1
      (shapeLine_grow ctx useEng _ _ _ _ _ _ lr.1 lr.2 hlr)
  · rw [if_neg hff] at hrest
    injection hrest with hrest
    injection hrest with ha hb
    injection hb with hb hc
    subst hc
    exact h1

theorem flow_stable (ctx : Ctx) (cw fs ls : ℚ) (useEng : EngineFns)
    (c d : Cache) (ws : List (List Char × Bool)) (r : ℚ × ℚ) (st : FlowState)
    (c' : Cache)
    (h : flow ctx cw fs ls useEng c ws = some (r, st, c'))
    (hle : cacheLe c' d) :
    flow ctx cw fs ls useEng d ws = some (r, st, d) := by
  unfold flow at h ⊢
  obtain ⟨sc, hloop, hrest⟩ := Option.bind_eq_some.1 h
  by_cases hff : sc.1.currentLineWords.length ≠ 0 ∧
      sc.1.lines < ctx.lineLimit
  · rw [if_pos hff] at hrest
    obtain ⟨lr, hlr, heq⟩ := Option.map_eq_some'.1 hrest
    dsimp only at heq
    injection heq with ha hb
    injection hb with hb hc
    subst hc
    have hlle : cacheLe sc.2 d :=
      cacheLe_trans (shapeLine_grow ctx useEng _ _ _ _ _ _ lr.1 lr.2 hlr) hle
    rw [flowLoop_stable ctx cw fs ls useEng ws initFlowState c d 0
      sc.1 sc.2 hloop hlle]
    rw [some_bind_eq]
    try dsimp only
    rw [if_pos hff]
    rw [shapeLine_stable ctx useEng sc.2 d _ _ _ _ _ lr.1 lr.2 hlr hle]
    dsimp only [Option.map_some']
    rw [ha, hb]
  · rw [if_neg hff] at hrest
    injection hrest with hrest
    injection hrest with ha hb
    injection hb with hb hc
    subst hc
    rw [flowLoop_stable ctx cw fs ls useEng ws initFlowState c d 0
      sc.1 sc.2 hloop hle]
    rw [some_bind_eq]
    try dsimp only
    rw [if_neg hff]
    rw [ha, hb]

theorem fitLoop_grow (ctx : Ctx) (cw ch : ℚ) (words : List (List Char × Bool)) :
    ∀ (fuel lo hi best : Nat) (c : Cache) (b : Nat) (c' : Cache),
    fitLoop ctx cw ch words fuel lo hi best c = some (b, c') → cacheLe c c' := by
  intro fuel
  induction fuel with
  | zero =>
    intro lo hi best c b c' h
    injection h with h
    injection h with h1 h2
    subst h2
    exact cacheLe_refl c
  | succ fuel ih =>
    intro lo hi best c b c' h
    rw [fitLoop] at h
    by_cases hlohi : lo ≤ hi
    · rw [if_pos hlohi] at h
      obtain ⟨fr, hflow, hrest⟩ := Option.bind_eq_some.1 h
      try dsimp only at hrest
      have hg := flow_grow ctx cw _ ctx.letterSpacing _ c words
        fr.1 fr.2.1 fr.2.2 hflow
      by_cases hfit : fr.1.2 ≤ ch
      · rw [if_pos hfit] at hrest
        exact cacheLe_trans hg (ih _ hi _ fr.2.2 b c' hrest)
      · rw [if_neg hfit] at hrest
        exact cacheLe_trans hg (ih lo _ best fr.2.2 b c' hrest)
    · rw [if_neg hlohi] at h
      injection h with h
      injection h with h1 h2
      subst h2
      exact cacheLe_refl c

theorem fitLoop_stable (ctx : Ctx) (cw ch : ℚ)
    (words : List (List Char × Bool)) :
    ∀ (fuel lo hi best : Nat) (c d : Cache) (b : Nat) (c' : Cache),
    fitLoop ctx cw ch words fuel lo hi best c = some (b, c') →
    cacheLe c' d →
    fitLoop ctx cw ch words fuel lo hi best d = some (b, d) := by
  intro fuel
  induction fuel with
  | zero =>
    intro lo hi best c d b c' h hle
    injection h with h
    injection h with h1 h2
    subst h1
    rfl
  | succ fuel ih =>
    intro lo hi best c d b c' h hle
    rw [fitLoop] at h ⊢
    by_cases hlohi : lo ≤ hi
    · rw [if_pos hlohi] at h ⊢
      obtain ⟨fr, hflow, hrest⟩ := Option.bind_eq_some.1 h
      try dsimp only at hrest
      dsimp only
      by_cases hfit : fr.1.2 ≤ ch
      · rw [if_pos hfit] at hrest
        have hfd : cacheLe fr.2.2 d :=
          cacheLe_trans (fitLoop_grow ctx cw ch words fuel _ hi _
            fr.2.2 b c' hrest) hle
        rw [flow_stable ctx cw _ ctx.letterSpacing _ c d words
          fr.1 fr.2.1 fr.2.2 hflow hfd]
        rw [some_bind_eq]
        dsimp only
        rw [if_pos hfit]
        exact ih _ hi _ fr.2.2 d b c' hrest hle
      · rw [if_neg hfit] at hrest
        have hfd : cacheLe fr.2.2 d :=
          cacheLe_trans (fitLoop_grow ctx cw ch words fuel lo _ best
            fr.2.2 b c' hrest) hle
        rw [flow_stable ctx cw _ ctx.letterSpacing _ c d words
          fr.1 fr.2.1 fr.2.2 hflow hfd]
        rw [some_bind_eq]
        dsimp only
        rw [if_neg hfit]
        exact ih lo _ best fr.2.2 d b c' hrest hle
    · rw [if_neg hlohi] at h ⊢
      injection h with h
      injection h with h1 h2
      subst h1
      rfl

theorem measureCallback_grow (ctx : Ctx) (words : List (List Char × Bool))
    (c : Cache) (cw ch : ℚ) (r : ℚ × ℚ) (st : FlowState) (c' : Cache)
    (h : measureCallback ctx words c cw ch = some (r, st, c')) :
    cacheLe c c' := by
  unfold measureCallback at h
  by_cases ht : ctx.textFit = "multiline"
  · rw [if_pos ht] at h
    obtain ⟨bc, hfit, hrest⟩ := Option.bind_eq_some.1 h
    obtain ⟨fr, hflow, heq⟩ := Option.map_eq_some'.1 hrest
    injection heq with h1 h2
    injection h2 with h2 h3
    subst h3
    exact cacheLe_trans
      (fitLoop_grow ctx cw ch words _ _ _ _ c bc.1 bc.2 hfit)
      (flow_grow ctx cw _ ctx.letterSpacing _ bc.2 words
        fr.1 fr.2.1 fr.2.2 hflow)
  · rw [if_neg ht] at h
    obtain ⟨fr, hflow, heq⟩ := Option.map_eq_some'.1 h
    injection heq with h1 h2
    injection h2 with h2 h3
    subst h3
    exact flow_grow ctx cw ctx.fontSize ctx.letterSpacing _ c words
      fr.1 fr.2.1 fr.2.2 hflow

theorem measureCallback_stable (ctx : Ctx) (words : List (List Char × Bool))
    (c d : Cache) (cw ch : ℚ) (r : ℚ × ℚ) (st : FlowState) (c' : Cache)
    (h : measureCallback ctx words c cw ch = some (r, st, c'))
    (hle : cacheLe c' d) :
    measureCallback ctx words d cw ch = some (r, st, d) := by
  unfold measureCallback at h ⊢
  by_cases ht : ctx.textFit = "multiline"
  · rw [if_pos ht] at h ⊢
    obtain ⟨bc, hfit, hrest⟩ := Option.bind_eq_some.1 h
    obtain ⟨fr, hflow, heq⟩ := Option.map_eq_some'.1 hrest
    injection heq with h1 h2
    injection h2 with h2 h3
    subst h3
    have hbd : cacheLe bc.2 d :=
      cacheLe_trans (flow_grow ctx cw _ ctx.letterSpacing _ bc.2 words
        fr.1 fr.2.1 fr.2.2 hflow) hle
    dsimp only
    rw [fitLoop_stable ctx cw ch words _ _ _ _ c d bc.1 bc.2 hfit hbd]
    rw [some_bind_eq]
    dsimp only
    rw [flow_stable ctx cw _ ctx.letterSpacing _ bc.2 d words
      fr.1 fr.2.1 fr.2.2 hflow hle]
    dsimp only [Option.map_some']
    rw [h1, h2]
  · rw [if_neg ht] at h ⊢
    obtain ⟨fr, hflow, heq⟩ := Option.map_eq_some'.1 h
    injection heq with h1 h2
    injection h2 with h2 h3
    subst h3
    rw [flow_stable ctx cw ctx.fontSize ctx.letterSpacing _ c d words
      fr.1 fr.2.1 fr.2.2 hflow hle]
    dsimp only [Option.map_some']
    rw [h1, h2]

/-- C9: calling the measure callback twice with the same
`(availableWidth, availableHeight)` and configuration is idempotent — the
second call (from the cache the first call left behind) reports the same
`(width, height)` and leaves the very same accumulator state (`lineWidths`,
`baselines`, `lineSegmentNumber`, `placedSegments`) and cache, and the only
persistent side effect of a call is cache growth. -/
theorem measureCallback_idempotent (ctx : Ctx)
    (words : List (List Char × Bool)) (c : Cache) (cw ch : ℚ) (r : ℚ × ℚ)
    (st : FlowState) (c' : Cache)
    (h : measureCallback ctx words c cw ch = some (r, st, c')) :
    measureCallback ctx words c' cw ch = some (r, st, c') ∧ cacheLe c c' :=
  ⟨measureCallback_stable ctx words c c' cw ch r st c' h (cacheLe_refl c'),
   measureCallback_grow ctx words c cw ch r st c' h⟩

/-- Witness for C9 at a concrete empty word sequence. -/
theorem measureCallback_idempotent_witness :
    measureCallback sampleCtx [] [] 100 100 =
      some (((0 : ℚ), (0 : ℚ)), initFlowState, []) ∧
    cacheLe [] [] := by
  have h : measureCallback sampleCtx [] [] 100 100 =
      some (((0 : ℚ), (0 : ℚ)), initFlowState, []) := by
    unfold measureCallback
    rw [if_neg (by decide)]
    unfold flow flowLoop
    simp [initFlowState]
  exact ⟨(measureCallback_idempotent sampleCtx [] [] 100 100
      ((0 : ℚ), (0 : ℚ)) initFlowState [] h).1,
    (measureCallback_idempotent sampleCtx [] [] 100 100
      ((0 : ℚ), (0 : ℚ)) initFlowState [] h).2⟩

end Satori
